import Mathlib

/-!
Shallow embedding of the Redis-backed write-behind inventory buffer
(`RedisInventoryBuffer` in the source: `Add`, `FlushBatch`, `Flush`,
`CleanupStale`, and the shutdown drain loop of `backgroundFlush`).

The backing Redis state is modelled as a pair of an association list
(the hash at `bufferKey`, field = roblox user id, value = the stored
serialized blob) and a list of strings (the set at `pendingKey`).
Stored blobs are modelled by `StoredVal`: `good inv` is the result of a
successful `json.Marshal` of a `BufferedInventory`, while `corrupt t`
stands for a blob that `json.Unmarshal` rejects.  Time is modelled as
an integer number of seconds.
-/

namespace VinzHub

/-- The unit of buffering: mirrors the Go struct `BufferedInventory`
(`KeyAccountID int64`, `RobloxUserID string`, `RawJSON []byte`,
`UpdatedAt time.Time`). -/
structure BufferedInventory where
  keyAccountID : Int
  robloxUserID : String
  rawJSON : String
  updatedAt : Int
deriving DecidableEq, Repr

/-- A value stored in the Redis hash: either the serialization of a
`BufferedInventory` or a corrupt blob that fails to deserialize. -/
inductive StoredVal where
  | good (inv : BufferedInventory)
  | corrupt (tag : Nat)
deriving DecidableEq, Repr

/-- `json.Unmarshal` into `BufferedInventory`: succeeds exactly on
well-formed serializations. -/
def decode : StoredVal → Option BufferedInventory
  | .good inv => some inv
  | .corrupt _ => none

/-- The Redis state owned by the buffer: the hash at `bufferKey`
(association list, unique keys in any reachable state) and the set at
`pendingKey`. -/
structure BufState where
  buffer : List (String × StoredVal)
  pending : List String
deriving DecidableEq, Repr

/-- Redis `HGET`: first entry for the field, if any. -/
def hget : List (String × StoredVal) → String → Option StoredVal
  | [], _ => none
  | (k', v) :: rest, k => if k' = k then some v else hget rest k

/-- Redis `HDEL`: remove every entry for the field. -/
def hdel : List (String × StoredVal) → String → List (String × StoredVal)
  | [], _ => []
  | (k', v) :: rest, k => if k' = k then hdel rest k else (k', v) :: hdel rest k

/-- Redis `HSET`: set the field to the value. -/
def hset (buf : List (String × StoredVal)) (k : String) (v : StoredVal) :
    List (String × StoredVal) :=
  (k, v) :: hdel buf k

/-- Redis `SREM`: remove the member from the set. -/
def srem : List String → String → List String
  | [], _ => []
  | x :: rest, k => if x = k then srem rest k else x :: srem rest k

/-- Redis `SADD`: add the member if absent. -/
def sadd (p : List String) (k : String) : List String :=
  if k ∈ p then p else p ++ [k]

/-- A primitive store mutation, as issued by the Go code against the two
Redis structures. -/
inductive StoreOp where
  | hsetOp (k : String) (v : StoredVal)
  | hdelOp (k : String)
  | saddOp (k : String)
  | sremOp (k : String)
deriving DecidableEq, Repr

/-- Apply one primitive mutation to the state. -/
def applyOp (s : BufState) : StoreOp → BufState
  | .hsetOp k v => { s with buffer := hset s.buffer k v }
  | .hdelOp k => { s with buffer := hdel s.buffer k }
  | .saddOp k => { s with pending := sadd s.pending k }
  | .sremOp k => { s with pending := srem s.pending k }

/-- Apply a sequence of primitive mutations in order. -/
def applyOps (s : BufState) (ops : List StoreOp) : BufState :=
  ops.foldl applyOp s

/-- The two store operations issued by `Add`, in the order of the Go
pipeline: `HSet` the record, then `SAdd` its key. -/
def addOps (k : String) (v : StoredVal) : List StoreOp :=
  [.hsetOp k v, .saddOp k]

/-- The two store operations that remove a key, in the order used by the
`deleteIfUnchangedScript` Lua script and by the corrupt-entry removal in
`FlushBatch` and `CleanupStale`: `HDel` the record, then `SRem` its key. -/
def removeBothOps (k : String) : List StoreOp :=
  [.hdelOp k, .sremOp k]

/-- `Add`: build the record with `UpdatedAt := now`, `json.Marshal` it,
and on success pipeline `HSet` then `SAdd`.  The serializer is a
parameter so that a marshal failure can be expressed; `jsonMarshal`
below is the concrete one. -/
def addWith (marshal : BufferedInventory → Option StoredVal) (now : Int)
    (s : BufState) (keyAccountID : Int) (robloxUserID : String)
    (rawJSON : String) : Except Unit BufState :=
  match marshal ⟨keyAccountID, robloxUserID, rawJSON, now⟩ with
  | none => .error ()
  | some data => .ok (applyOps s (addOps robloxUserID data))

/-- `json.Marshal` of a `BufferedInventory`, which always succeeds and
round-trips through `decode`. -/
def jsonMarshal (inv : BufferedInventory) : Option StoredVal :=
  some (.good inv)

/-- The `deleteIfUnchangedScript` Lua script: if the current stored
value of the field equals the snapshot, `HDEL` the record and `SREM`
the key; otherwise do nothing. -/
def deleteIfUnchanged (s : BufState) (u : String) (snap : StoredVal) : BufState :=
  if hget s.buffer u = some snap then applyOps s (removeBothOps u) else s

/-- Result of the collect loop of `FlushBatch`: the state after the
loop's immediate `HDel`/`SRem` calls, the successfully decoded `items`,
and `originalData` (the snapshots, keyed by user id). -/
structure CollectRes where
  st : BufState
  items : List BufferedInventory
  orig : List (String × StoredVal)
deriving DecidableEq, Repr

/-- The collect loop of `FlushBatch` over the selected user ids: a
missing record drops the dangling pending entry; a snapshot is recorded
in `originalData` before decoding; a corrupt blob is removed from both
structures immediately; a good record joins `items`. -/
def collectGo : BufState → List String → CollectRes
  | s, [] => ⟨s, [], []⟩
  | s, u :: rest =>
    match hget s.buffer u with
    | none =>
      collectGo { s with pending := srem s.pending u } rest
    | some data =>
      match decode data with
      | none =>
        let r := collectGo (applyOps s (removeBothOps u)) rest
        ⟨r.st, r.items, (u, data) :: r.orig⟩
      | some inv =>
        let r := collectGo s rest
        ⟨r.st, inv :: r.items, (u, data) :: r.orig⟩

/-- The eviction loop of `FlushBatch`: run the conditional-evict script
once per snapshot in `originalData`. -/
def evictGo (s : BufState) : List (String × StoredVal) → BufState
  | [] => s
  | (u, snap) :: rest => evictGo (deleteIfUnchanged s u snap) rest

/-- What one `FlushBatch` call returns, together with its final state
and (as bookkeeping) the exact list of records handed to the sink. -/
structure FlushResult where
  state : BufState
  flushed : Nat
  err : Bool
  sent : List BufferedInventory
deriving DecidableEq, Repr

/-- `FlushBatch`, parameterized by the persistence sink `flushFunc`
(`true` = success) and by the list `sel` returned by
`SRandMemberN(pendingKey, MaxBatchSize)`: empty selection returns
`(0, nil)` untouched; otherwise collect, return `(0, nil)` if nothing
decoded, call the sink once, and on success run the conditional evicts;
on sink failure return `(0, err)` with no eviction. -/
def flushBatch (sink : List BufferedInventory → Bool) (s : BufState)
    (sel : List String) : FlushResult :=
  if sel = [] then ⟨s, 0, false, []⟩
  else
    let c := collectGo s sel
    if c.items = [] then ⟨c.st, 0, false, []⟩
    else if sink c.items then ⟨evictGo c.st c.orig, c.items.length, false, c.items⟩
    else ⟨c.st, 0, true, c.items⟩

/-- `MaxBatchSize` from the configuration constants. -/
def MaxBatchSize : Nat := 500

/-- `StaleDataThreshold` (1 hour), in seconds. -/
def staleDataThreshold : Int := 3600

/-- `Flush`: exactly one `FlushBatch` call with the flushed count
discarded, returning only the error. -/
def flushGo (sink : List BufferedInventory → Bool) (s : BufState)
    (sel : List String) : BufState × Bool :=
  ((flushBatch sink s sel).state, (flushBatch sink s sel).err)

/-- The scan loop of `CleanupStale`: reads go directly against the
(unmodified) hash, removals are queued on a pipeline.  Returns the
queued operations in order together with `staleCount`. -/
def cleanupScan (buf : List (String × StoredVal)) (stale : Int) :
    List String → List StoreOp × Nat
  | [] => ([], 0)
  | u :: rest =>
    let r := cleanupScan buf stale rest
    match hget buf u with
    | none => (.sremOp u :: r.1, r.2)
    | some data =>
      match decode data with
      | none => (.hdelOp u :: .sremOp u :: r.1, r.2 + 1)
      | some inv =>
        if inv.updatedAt < stale then (.hdelOp u :: .sremOp u :: r.1, r.2 + 1)
        else r

/-- `CleanupStale`: scan all pending members against
`staleThreshold = now - StaleDataThreshold`; the queued pipeline is
executed only when `staleCount > 0`. -/
def cleanupStale (now : Int) (s : BufState) : BufState × Nat :=
  if s.pending = [] then (s, 0)
  else
    let r := cleanupScan s.buffer (now - staleDataThreshold) s.pending
    if 0 < r.2 then (applyOps s r.1, r.2) else (s, r.2)

/-- The shutdown drain loop of `backgroundFlush`: repeatedly call
`FlushBatch`, stopping on an error or on a zero flushed count; the fuel
models the drain deadline.  The second component accumulates the
records handed to the sink. -/
def drain (sink : List BufferedInventory → Bool)
    (selFun : List String → List String) :
    Nat → BufState → BufState × List BufferedInventory
  | 0, s => (s, [])
  | fuel + 1, s =>
    let r := flushBatch sink s (selFun s.pending)
    if r.err then (r.state, [])
    else if r.flushed = 0 then (r.state, [])
    else
      let d := drain sink selFun fuel r.state
      (d.1, r.sent ++ d.2)

/-- The contract of `SRandMemberN(pendingKey, n)` on a set represented
by the duplicate-free list `p`: `n`-capped, duplicate-free members of
`p`, of size `min n (card p)`. -/
def SRandN (p : List String) (n : Nat) (sel : List String) : Prop :=
  sel.Nodup ∧ (∀ k ∈ sel, k ∈ p) ∧ sel.length = min n p.length

/-- A sink that always succeeds. -/
def okSink : List BufferedInventory → Bool := fun _ => true

/-- Reachable-state well-formedness: both Redis structures are
duplicate-free and the pending set indexes exactly the hash fields. -/
def WF (s : BufState) : Prop :=
  s.pending.Nodup ∧ (s.buffer.map Prod.fst).Nodup ∧
    (∀ k ∈ s.pending, (hget s.buffer k).isSome = true) ∧
    (∀ p ∈ s.buffer, p.1 ∈ s.pending)

/-- Every stored blob deserializes. -/
def AllGood (s : BufState) : Prop :=
  ∀ p ∈ s.buffer, ∃ inv, p.2 = StoredVal.good inv

/-- The pending-index invariant: every indexed key has a record and
every record's key is indexed. -/
def pendingIndexInv (s : BufState) : Prop :=
  (∀ u ∈ s.pending, (hget s.buffer u).isSome = true) ∧
    (∀ e ∈ s.buffer, e.1 ∈ s.pending)

/-! Basic facts about the store primitives. -/

theorem decode_eq_some {d : StoredVal} {inv : BufferedInventory} :
    decode d = some inv ↔ d = .good inv := by
  cases d <;> simp [decode]

@[simp] theorem hget_nil (k : String) : hget [] k = none := rfl

theorem hget_cons (k' k : String) (v : StoredVal) (rest : List (String × StoredVal)) :
    hget ((k', v) :: rest) k = if k' = k then some v else hget rest k := rfl

@[simp] theorem hget_hdel_self (buf : List (String × StoredVal)) (k : String) :
    hget (hdel buf k) k = none := by
  induction buf with
  | nil => rfl
  | cons e rest ih =>
    obtain ⟨k', v⟩ := e
    by_cases h : k' = k <;> simp [hdel, hget, h, ih]

theorem hget_hdel_ne (buf : List (String × StoredVal)) {k k' : String}
    (h : k' ≠ k) : hget (hdel buf k) k' = hget buf k' := by
  induction buf with
  | nil => rfl
  | cons e rest ih =>
    obtain ⟨k₀, v⟩ := e
    by_cases h0 : k₀ = k
    · subst h0
      rw [hdel, if_pos rfl, hget, if_neg (fun hh => h hh.symm)]
      exact ih
    · rw [hdel, if_neg h0, hget, hget]
      by_cases h1 : k₀ = k' <;> simp [h1, ih]

@[simp] theorem hget_hset_self (buf : List (String × StoredVal)) (k : String)
    (v : StoredVal) : hget (hset buf k v) k = some v := by
  simp [hset, hget]

theorem hget_hset_ne (buf : List (String × StoredVal)) {k k' : String}
    (v : StoredVal) (h : k' ≠ k) : hget (hset buf k v) k' = hget buf k' := by
  rw [hset, hget, if_neg (fun hh => h hh.symm)]
  exact hget_hdel_ne buf h

theorem mem_hdel {buf : List (String × StoredVal)} {k : String}
    {e : String × StoredVal} : e ∈ hdel buf k ↔ e ∈ buf ∧ e.1 ≠ k := by
  induction buf with
  | nil => simp [hdel]
  | cons e0 rest ih =>
    obtain ⟨k₀, v⟩ := e0
    by_cases h0 : k₀ = k
    · subst h0
      rw [hdel, if_pos rfl, ih]
      constructor
      · rintro ⟨h1, h2⟩; exact ⟨List.mem_cons_of_mem _ h1, h2⟩
      · rintro ⟨h1, h2⟩
        rcases List.mem_cons.mp h1 with rfl | h1
        · exact absurd rfl h2
        · exact ⟨h1, h2⟩
    · rw [hdel, if_neg h0]
      simp only [List.mem_cons, ih]
      constructor
      · rintro (rfl | ⟨h1, h2⟩)
        · exact ⟨Or.inl rfl, h0⟩
        · exact ⟨Or.inr h1, h2⟩
      · rintro ⟨rfl | h1, h2⟩
        · exact Or.inl rfl
        · exact Or.inr ⟨h1, h2⟩

theorem mem_srem {p : List String} {k x : String} :
    x ∈ srem p k ↔ x ∈ p ∧ x ≠ k := by
  induction p with
  | nil => simp [srem]
  | cons y rest ih =>
    by_cases h0 : y = k
    · subst h0
      rw [srem, if_pos rfl, ih]
      constructor
      · rintro ⟨h1, h2⟩; exact ⟨List.mem_cons_of_mem _ h1, h2⟩
      · rintro ⟨h1, h2⟩
        rcases List.mem_cons.mp h1 with rfl | h1
        · exact absurd rfl h2
        · exact ⟨h1, h2⟩
    · rw [srem, if_neg h0]
      simp only [List.mem_cons, ih]
      constructor
      · rintro (rfl | ⟨h1, h2⟩)
        · exact ⟨Or.inl rfl, h0⟩
        · exact ⟨Or.inr h1, h2⟩
      · rintro ⟨rfl | h1, h2⟩
        · exact Or.inl rfl
        · exact Or.inr ⟨h1, h2⟩

theorem mem_sadd {p : List String} {k x : String} :
    x ∈ sadd p k ↔ x ∈ p ∨ x = k := by
  by_cases h : k ∈ p
  · simp only [sadd, if_pos h]
    constructor
    · exact Or.inl
    · rintro (h1 | rfl)
      · exact h1
      · exact h
  · simp [sadd, if_neg h]

theorem srem_nodup {p : List String} (k : String) (h : p.Nodup) :
    (srem p k).Nodup := by
  induction p with
  | nil => simp [srem]
  | cons y rest ih =>
    rw [List.nodup_cons] at h
    by_cases h0 : y = k
    · simpa [srem, h0] using ih h.2
    · rw [srem, if_neg h0, List.nodup_cons]
      exact ⟨fun hc => h.1 (mem_srem.mp hc).1, ih h.2⟩

theorem srem_eq_of_not_mem {p : List String} {k : String} (h : k ∉ p) :
    srem p k = p := by
  induction p with
  | nil => rfl
  | cons y rest ih =>
    rw [List.mem_cons, not_or] at h
    rw [srem, if_neg (fun hh => h.1 hh.symm), ih h.2]

theorem srem_length_of_mem {p : List String} {k : String} (hnd : p.Nodup)
    (h : k ∈ p) : (srem p k).length + 1 = p.length := by
  induction p with
  | nil => cases h
  | cons y rest ih =>
    rw [List.nodup_cons] at hnd
    by_cases h0 : y = k
    · subst h0
      rw [srem, if_pos rfl, srem_eq_of_not_mem hnd.1, List.length_cons]
    · rw [List.mem_cons] at h
      have hk : k ∈ rest := h.resolve_left (fun hh => h0 hh.symm)
      rw [srem, if_neg h0, List.length_cons, List.length_cons,
        ← ih hnd.2 hk]

/-! Facts about primitive-operation sequences. -/

/-- The key an operation addresses. -/
def opKey : StoreOp → String
  | .hsetOp k _ => k
  | .hdelOp k => k
  | .saddOp k => k
  | .sremOp k => k

/-- Operations that only ever remove state. -/
def isRemoval : StoreOp → Prop
  | .hdelOp _ => True
  | .sremOp _ => True
  | _ => False

theorem applyOps_untouched (ops : List StoreOp) :
    ∀ (s : BufState) (k : String), (∀ op ∈ ops, opKey op ≠ k) →
      hget (applyOps s ops).buffer k = hget s.buffer k ∧
        ((k ∈ (applyOps s ops).pending) ↔ k ∈ s.pending) := by
  induction ops with
  | nil => intro s k _; exact ⟨rfl, Iff.rfl⟩
  | cons op rest ih =>
    intro s k h
    have hop : opKey op ≠ k := h op (List.mem_cons_self _ _)
    have hrest : ∀ o ∈ rest, opKey o ≠ k :=
      fun o ho => h o (List.mem_cons_of_mem _ ho)
    have step : hget (applyOp s op).buffer k = hget s.buffer k ∧
        ((k ∈ (applyOp s op).pending) ↔ k ∈ s.pending) := by
      cases op with
      | hsetOp u v =>
        exact ⟨hget_hset_ne s.buffer v (fun hh => hop hh.symm), Iff.rfl⟩
      | hdelOp u =>
        exact ⟨hget_hdel_ne s.buffer (fun hh => hop hh.symm), Iff.rfl⟩
      | saddOp u =>
        refine ⟨rfl, ?_⟩
        rw [applyOp]
        constructor
        · intro hm
          rcases mem_sadd.mp hm with hm | rfl
          · exact hm
          · exact absurd rfl hop
        · intro hm; exact mem_sadd.mpr (Or.inl hm)
      | sremOp u =>
        refine ⟨rfl, ?_⟩
        rw [applyOp]
        constructor
        · intro hm; exact (mem_srem.mp hm).1
        · intro hm; exact mem_srem.mpr ⟨hm, fun hh => hop hh.symm⟩
    have := ih (applyOp s op) k hrest
    rw [applyOps, List.foldl_cons] at *
    exact ⟨this.1.trans step.1, this.2.trans step.2⟩

theorem applyOps_removal_none (ops : List StoreOp) :
    ∀ (s : BufState) (k : String), (∀ op ∈ ops, isRemoval op) →
      hget s.buffer k = none → hget (applyOps s ops).buffer k = none := by
  induction ops with
  | nil => intro s k _ h; exact h
  | cons op rest ih =>
    intro s k hrem h
    have hrest : ∀ o ∈ rest, isRemoval o :=
      fun o ho => hrem o (List.mem_cons_of_mem _ ho)
    rw [applyOps, List.foldl_cons]
    apply ih _ _ hrest
    cases op with
    | hsetOp u v => exact absurd (hrem _ (List.mem_cons_self _ _)) (by simp [isRemoval])
    | saddOp u => exact absurd (hrem _ (List.mem_cons_self _ _)) (by simp [isRemoval])
    | hdelOp u =>
      by_cases hu : k = u
      · subst hu; exact hget_hdel_self s.buffer k
      · rw [applyOp]
        show hget (hdel s.buffer u) k = none
        rw [hget_hdel_ne s.buffer hu]; exact h
    | sremOp u => exact h

theorem applyOps_removal_not_pending (ops : List StoreOp) :
    ∀ (s : BufState) (k : String), (∀ op ∈ ops, isRemoval op) →
      k ∉ s.pending → k ∉ (applyOps s ops).pending := by
  induction ops with
  | nil => intro s k _ h; exact h
  | cons op rest ih =>
    intro s k hrem h
    have hrest : ∀ o ∈ rest, isRemoval o :=
      fun o ho => hrem o (List.mem_cons_of_mem _ ho)
    rw [applyOps, List.foldl_cons]
    apply ih _ _ hrest
    cases op with
    | hsetOp u v => exact absurd (hrem _ (List.mem_cons_self _ _)) (by simp [isRemoval])
    | saddOp u => exact absurd (hrem _ (List.mem_cons_self _ _)) (by simp [isRemoval])
    | hdelOp u => exact h
    | sremOp u =>
      rw [applyOp]
      intro hm
      exact h (mem_srem.mp hm).1

theorem applyOps_hdel_mem (ops : List StoreOp) :
    ∀ (s : BufState) (k : String), (∀ op ∈ ops, isRemoval op) →
      StoreOp.hdelOp k ∈ ops → hget (applyOps s ops).buffer k = none := by
  induction ops with
  | nil => intro s k _ h; cases h
  | cons op rest ih =>
    intro s k hrem h
    have hrest : ∀ o ∈ rest, isRemoval o :=
      fun o ho => hrem o (List.mem_cons_of_mem _ ho)
    rw [applyOps, List.foldl_cons]
    rcases List.mem_cons.mp h with rfl | h
    · exact applyOps_removal_none rest _ k hrest (hget_hdel_self s.buffer k)
    · exact ih _ k hrest h

theorem applyOps_srem_mem (ops : List StoreOp) :
    ∀ (s : BufState) (k : String), (∀ op ∈ ops, isRemoval op) →
      StoreOp.sremOp k ∈ ops → k ∉ (applyOps s ops).pending := by
  induction ops with
  | nil => intro s k _ h; cases h
  | cons op rest ih =>
    intro s k hrem h
    have hrest : ∀ o ∈ rest, isRemoval o :=
      fun o ho => hrem o (List.mem_cons_of_mem _ ho)
    rw [applyOps, List.foldl_cons]
    rcases List.mem_cons.mp h with rfl | h
    · apply applyOps_removal_not_pending rest _ k hrest
      rw [applyOp]
      intro hm
      exact (mem_srem.mp hm).2 rfl
    · exact ih _ k hrest h

/-- The state after the remove pair: record deleted, key deindexed. -/
theorem removeBoth_state (s : BufState) (u : String) :
    applyOps s (removeBothOps u) = ⟨hdel s.buffer u, srem s.pending u⟩ := rfl

/-- The state after the add pair: record written, key indexed. -/
theorem addPair_state (s : BufState) (u : String) (v : StoredVal) :
    applyOps s (addOps u v) = ⟨hset s.buffer u v, sadd s.pending u⟩ := rfl

/-- `Add` on a successful marshal. -/
theorem addWith_ok {marshal : BufferedInventory → Option StoredVal}
    {now : Int} {s : BufState} {kid : Int} {uid raw : String} {v : StoredVal}
    (h : marshal ⟨kid, uid, raw, now⟩ = some v) :
    addWith marshal now s kid uid raw =
      .ok ⟨hset s.buffer uid v, sadd s.pending uid⟩ := by
  rw [addWith, h]
  rfl

/-! Facts about the collect loop of `FlushBatch`. -/

theorem collectGo_nil (s : BufState) : collectGo s [] = ⟨s, [], []⟩ := rfl

theorem collectGo_cons_none {s : BufState} {u : String} (rest : List String)
    (hu : hget s.buffer u = none) :
    collectGo s (u :: rest) =
      collectGo { s with pending := srem s.pending u } rest := by
  simp only [collectGo, hu]

theorem collectGo_cons_corrupt {s : BufState} {u : String} {data : StoredVal}
    (rest : List String) (hu : hget s.buffer u = some data)
    (hd : decode data = none) :
    collectGo s (u :: rest) =
      ⟨(collectGo ⟨hdel s.buffer u, srem s.pending u⟩ rest).st,
        (collectGo ⟨hdel s.buffer u, srem s.pending u⟩ rest).items,
        (u, data) :: (collectGo ⟨hdel s.buffer u, srem s.pending u⟩ rest).orig⟩ := by
  simp only [collectGo, hu, hd]
  rfl

theorem collectGo_cons_good {s : BufState} {u : String} {data : StoredVal}
    {inv : BufferedInventory} (rest : List String)
    (hu : hget s.buffer u = some data) (hd : decode data = some inv) :
    collectGo s (u :: rest) =
      ⟨(collectGo s rest).st, inv :: (collectGo s rest).items,
        (u, data) :: (collectGo s rest).orig⟩ := by
  simp only [collectGo, hu, hd]

theorem collect_no_new (sel : List String) :
    ∀ (s : BufState) (k : String), hget s.buffer k = none → k ∉ s.pending →
      hget (collectGo s sel).st.buffer k = none ∧
        k ∉ (collectGo s sel).st.pending := by
  induction sel with
  | nil => intro s k h1 h2; exact ⟨h1, h2⟩
  | cons u rest ih =>
    intro s k h1 h2
    cases hu : hget s.buffer u with
    | none =>
      rw [collectGo_cons_none rest hu]
      exact ih { s with pending := srem s.pending u } k h1
        (fun hm => h2 (mem_srem.mp hm).1)
    | some data =>
      cases hd : decode data with
      | none =>
        rw [collectGo_cons_corrupt rest hu hd]
        have hb : hget (hdel s.buffer u) k = none := by
          by_cases hk : k = u
          · subst hk; exact hget_hdel_self s.buffer k
          · rw [hget_hdel_ne s.buffer hk]; exact h1
        exact ih ⟨hdel s.buffer u, srem s.pending u⟩ k hb
          (fun hm => h2 (mem_srem.mp hm).1)
      | some inv =>
        rw [collectGo_cons_good rest hu hd]
        exact ih s k h1 h2

theorem collect_good_preserved (sel : List String) :
    ∀ (s : BufState) (k : String) (inv : BufferedInventory),
      hget s.buffer k = some (.good inv) →
        hget (collectGo s sel).st.buffer k = some (.good inv) ∧
          ((k ∈ (collectGo s sel).st.pending) ↔ k ∈ s.pending) := by
  induction sel with
  | nil => intro s k inv h; exact ⟨h, Iff.rfl⟩
  | cons u rest ih =>
    intro s k inv h
    cases hu : hget s.buffer u with
    | none =>
      rw [collectGo_cons_none rest hu]
      have hk : k ≠ u := by
        intro heq; rw [heq, hu] at h; cases h
      have := ih { s with pending := srem s.pending u } k inv h
      refine ⟨this.1, this.2.trans ?_⟩
      show k ∈ srem s.pending u ↔ k ∈ s.pending
      constructor
      · intro hm; exact (mem_srem.mp hm).1
      · intro hm; exact mem_srem.mpr ⟨hm, hk⟩
    | some data =>
      cases hd : decode data with
      | none =>
        rw [collectGo_cons_corrupt rest hu hd]
        have hk : k ≠ u := by
          intro heq
          rw [heq, hu] at h
          injection h with h
          rw [h] at hd
          simp [decode] at hd
        have hb : hget (hdel s.buffer u) k = some (.good inv) := by
          rw [hget_hdel_ne s.buffer hk]; exact h
        have := ih ⟨hdel s.buffer u, srem s.pending u⟩ k inv hb
        refine ⟨this.1, this.2.trans ?_⟩
        show k ∈ srem s.pending u ↔ k ∈ s.pending
        constructor
        · intro hm; exact (mem_srem.mp hm).1
        · intro hm; exact mem_srem.mpr ⟨hm, hk⟩
      | some inv0 =>
        rw [collectGo_cons_good rest hu hd]
        exact ih s k inv h

theorem collect_untouched (sel : List String) :
    ∀ (s : BufState) (k : String), k ∉ sel →
      hget (collectGo s sel).st.buffer k = hget s.buffer k ∧
        ((k ∈ (collectGo s sel).st.pending) ↔ k ∈ s.pending) := by
  induction sel with
  | nil => intro s k _; exact ⟨rfl, Iff.rfl⟩
  | cons u rest ih =>
    intro s k hk
    rw [List.mem_cons, not_or] at hk
    cases hu : hget s.buffer u with
    | none =>
      rw [collectGo_cons_none rest hu]
      have := ih { s with pending := srem s.pending u } k hk.2
      refine ⟨this.1, this.2.trans ?_⟩
      show k ∈ srem s.pending u ↔ k ∈ s.pending
      constructor
      · intro hm; exact (mem_srem.mp hm).1
      · intro hm; exact mem_srem.mpr ⟨hm, hk.1⟩
    | some data =>
      cases hd : decode data with
      | none =>
        rw [collectGo_cons_corrupt rest hu hd]
        have := ih ⟨hdel s.buffer u, srem s.pending u⟩ k hk.2
        refine ⟨this.1.trans (hget_hdel_ne s.buffer hk.1), this.2.trans ?_⟩
        show k ∈ srem s.pending u ↔ k ∈ s.pending
        constructor
        · intro hm; exact (mem_srem.mp hm).1
        · intro hm; exact mem_srem.mpr ⟨hm, hk.1⟩
      | some inv0 =>
        rw [collectGo_cons_good rest hu hd]
        exact ih s k hk.2

theorem collect_corrupt_removed (sel : List String) :
    ∀ (s : BufState) (k : String) (t : Nat), k ∈ sel →
      hget s.buffer k = some (.corrupt t) →
        hget (collectGo s sel).st.buffer k = none ∧
          k ∉ (collectGo s sel).st.pending := by
  induction sel with
  | nil => intro s k t hk _; cases hk
  | cons u rest ih =>
    intro s k t hk h
    by_cases hku : k = u
    · subst hku
      rw [collectGo_cons_corrupt rest h rfl]
      exact collect_no_new rest ⟨hdel s.buffer k, srem s.pending k⟩ k
        (hget_hdel_self s.buffer k) (fun hm => (mem_srem.mp hm).2 rfl)
    · have hk' : k ∈ rest := (List.mem_cons.mp hk).resolve_left hku
      cases hu : hget s.buffer u with
      | none =>
        rw [collectGo_cons_none rest hu]
        exact ih { s with pending := srem s.pending u } k t hk' h
      | some data =>
        cases hd : decode data with
        | none =>
          rw [collectGo_cons_corrupt rest hu hd]
          have hb : hget (hdel s.buffer u) k = some (.corrupt t) := by
            rw [hget_hdel_ne s.buffer hku]; exact h
          exact ih ⟨hdel s.buffer u, srem s.pending u⟩ k t hk' hb
        | some inv0 =>
          rw [collectGo_cons_good rest hu hd]
          exact ih s k t hk' h

theorem collect_items_le (sel : List String) :
    ∀ s : BufState, (collectGo s sel).items.length ≤ sel.length := by
  induction sel with
  | nil => intro s; exact Nat.le_refl 0
  | cons u rest ih =>
    intro s
    cases hu : hget s.buffer u with
    | none =>
      rw [collectGo_cons_none rest hu]
      exact Nat.le_succ_of_le (ih { s with pending := srem s.pending u })
    | some data =>
      cases hd : decode data with
      | none =>
        rw [collectGo_cons_corrupt rest hu hd]
        exact Nat.le_succ_of_le (ih ⟨hdel s.buffer u, srem s.pending u⟩)
      | some inv0 =>
        rw [collectGo_cons_good rest hu hd]
        exact Nat.succ_le_succ (ih s)

theorem collect_items_from (sel : List String) :
    ∀ (s : BufState) (inv : BufferedInventory),
      inv ∈ (collectGo s sel).items →
        ∃ u, u ∈ sel ∧ hget s.buffer u = some (.good inv) := by
  induction sel with
  | nil => intro s inv h; cases h
  | cons u rest ih =>
    intro s inv h
    cases hu : hget s.buffer u with
    | none =>
      rw [collectGo_cons_none rest hu] at h
      obtain ⟨w, hw1, hw2⟩ := ih { s with pending := srem s.pending u } inv h
      exact ⟨w, List.mem_cons_of_mem _ hw1, hw2⟩
    | some data =>
      cases hd : decode data with
      | none =>
        rw [collectGo_cons_corrupt rest hu hd] at h
        obtain ⟨w, hw1, hw2⟩ := ih ⟨hdel s.buffer u, srem s.pending u⟩ inv h
        have hwu : w ≠ u := by
          intro heq; rw [heq] at hw2
          rw [hget_hdel_self] at hw2; cases hw2
        rw [hget_hdel_ne s.buffer hwu] at hw2
        exact ⟨w, List.mem_cons_of_mem _ hw1, hw2⟩
      | some inv0 =>
        rw [collectGo_cons_good rest hu hd] at h
        rcases List.mem_cons.mp h with rfl | h
        · refine ⟨u, List.mem_cons_self _ _, ?_⟩
          rw [hu, decode_eq_some.mp hd]
        · obtain ⟨w, hw1, hw2⟩ := ih s inv h
          exact ⟨w, List.mem_cons_of_mem _ hw1, hw2⟩

theorem collect_orig_sub (sel : List String) :
    ∀ (s : BufState) (u : String) (d : StoredVal),
      (u, d) ∈ (collectGo s sel).orig → u ∈ sel := by
  induction sel with
  | nil => intro s u d h; cases h
  | cons w rest ih =>
    intro s u d h
    cases hu : hget s.buffer w with
    | none =>
      rw [collectGo_cons_none rest hu] at h
      exact List.mem_cons_of_mem _ (ih { s with pending := srem s.pending w } u d h)
    | some data =>
      cases hd : decode data with
      | none =>
        rw [collectGo_cons_corrupt rest hu hd] at h
        rcases List.mem_cons.mp h with heq | h
        · rw [Prod.mk.injEq] at heq
          rcases heq with ⟨rfl, rfl⟩
          exact List.mem_cons_self _ _
        · exact List.mem_cons_of_mem _
            (ih ⟨hdel s.buffer w, srem s.pending w⟩ u d h)
      | some inv0 =>
        rw [collectGo_cons_good rest hu hd] at h
        rcases List.mem_cons.mp h with heq | h
        · rw [Prod.mk.injEq] at heq
          rcases heq with ⟨rfl, rfl⟩
          exact List.mem_cons_self _ _
        · exact List.mem_cons_of_mem _ (ih s u d h)

theorem collect_orig_hget (sel : List String) :
    ∀ (s : BufState) (k : String) (snap : StoredVal),
      (k, snap) ∈ (collectGo s sel).orig → hget s.buffer k = some snap := by
  induction sel with
  | nil => intro s k snap h; cases h
  | cons u rest ih =>
    intro s k snap h
    cases hu : hget s.buffer u with
    | none =>
      rw [collectGo_cons_none rest hu] at h
      exact ih { s with pending := srem s.pending u } k snap h
    | some data =>
      cases hd : decode data with
      | none =>
        rw [collectGo_cons_corrupt rest hu hd] at h
        rcases List.mem_cons.mp h with heq | h
        · rw [Prod.mk.injEq] at heq
          rcases heq with ⟨rfl, rfl⟩
          exact hu
        · have := ih ⟨hdel s.buffer u, srem s.pending u⟩ k snap h
          have hku : k ≠ u := by
            intro heq; rw [heq, hget_hdel_self] at this; cases this
          rw [hget_hdel_ne s.buffer hku] at this
          exact this
      | some inv0 =>
        rw [collectGo_cons_good rest hu hd] at h
        rcases List.mem_cons.mp h with heq | h
        · rw [Prod.mk.injEq] at heq
          rcases heq with ⟨rfl, rfl⟩
          exact hu
        · exact ih s k snap h

/-! Facts about the conditional-evict loop. -/

theorem deleteIfUnchanged_hit {s : BufState} {u : String} {snap : StoredVal}
    (h : hget s.buffer u = some snap) :
    deleteIfUnchanged s u snap = ⟨hdel s.buffer u, srem s.pending u⟩ := by
  rw [deleteIfUnchanged, if_pos h]; rfl

theorem deleteIfUnchanged_miss {s : BufState} {u : String} {snap : StoredVal}
    (h : ¬hget s.buffer u = some snap) :
    deleteIfUnchanged s u snap = s := by
  rw [deleteIfUnchanged, if_neg h]

theorem evictGo_cons (s : BufState) (u : String) (snap : StoredVal)
    (rest : List (String × StoredVal)) :
    evictGo s ((u, snap) :: rest) = evictGo (deleteIfUnchanged s u snap) rest := rfl

theorem evict_no_new (orig : List (String × StoredVal)) :
    ∀ (s : BufState) (k : String), hget s.buffer k = none → k ∉ s.pending →
      hget (evictGo s orig).buffer k = none ∧ k ∉ (evictGo s orig).pending := by
  induction orig with
  | nil => intro s k h1 h2; exact ⟨h1, h2⟩
  | cons e rest ih =>
    obtain ⟨u, snap⟩ := e
    intro s k h1 h2
    rw [evictGo_cons]
    by_cases hc : hget s.buffer u = some snap
    · rw [deleteIfUnchanged_hit hc]
      have hb : hget (hdel s.buffer u) k = none := by
        by_cases hk : k = u
        · subst hk; exact hget_hdel_self s.buffer k
        · rw [hget_hdel_ne s.buffer hk]; exact h1
      exact ih _ k hb (fun hm => h2 (mem_srem.mp hm).1)
    · rw [deleteIfUnchanged_miss hc]
      exact ih s k h1 h2

theorem evict_keeps_mismatch (orig : List (String × StoredVal)) :
    ∀ (s : BufState) (k : String) (v : StoredVal), hget s.buffer k = some v →
      (∀ snap, (k, snap) ∈ orig → snap ≠ v) →
      hget (evictGo s orig).buffer k = some v ∧
        ((k ∈ (evictGo s orig).pending) ↔ k ∈ s.pending) := by
  induction orig with
  | nil => intro s k v h _; exact ⟨h, Iff.rfl⟩
  | cons e rest ih =>
    obtain ⟨u, snap⟩ := e
    intro s k v h hm
    rw [evictGo_cons]
    by_cases hku : k = u
    · subst hku
      have hsnap : snap ≠ v := hm snap (List.mem_cons_self _ _)
      have hc : ¬hget s.buffer k = some snap := by
        rw [h]; intro hh; injection hh with hh; exact hsnap hh.symm
      rw [deleteIfUnchanged_miss hc]
      exact ih s k v h (fun sn hsn => hm sn (List.mem_cons_of_mem _ hsn))
    · by_cases hc : hget s.buffer u = some snap
      · rw [deleteIfUnchanged_hit hc]
        have hb : hget (hdel s.buffer u) k = some v := by
          rw [hget_hdel_ne s.buffer hku]; exact h
        have := ih ⟨hdel s.buffer u, srem s.pending u⟩ k v hb
          (fun sn hsn => hm sn (List.mem_cons_of_mem _ hsn))
        refine ⟨this.1, this.2.trans ?_⟩
        show k ∈ srem s.pending u ↔ k ∈ s.pending
        constructor
        · intro hm'; exact (mem_srem.mp hm').1
        · intro hm'; exact mem_srem.mpr ⟨hm', hku⟩
      · rw [deleteIfUnchanged_miss hc]
        exact ih s k v h (fun sn hsn => hm sn (List.mem_cons_of_mem _ hsn))

theorem evict_untouched (orig : List (String × StoredVal)) :
    ∀ (s : BufState) (k : String), (∀ snap, (k, snap) ∉ orig) →
      hget (evictGo s orig).buffer k = hget s.buffer k ∧
        ((k ∈ (evictGo s orig).pending) ↔ k ∈ s.pending) := by
  induction orig with
  | nil => intro s k _; exact ⟨rfl, Iff.rfl⟩
  | cons e rest ih =>
    obtain ⟨u, snap⟩ := e
    intro s k hk
    have hku : k ≠ u := by
      intro heq; subst heq
      exact hk snap (List.mem_cons_self _ _)
    have hrest : ∀ sn, (k, sn) ∉ rest :=
      fun sn hsn => hk sn (List.mem_cons_of_mem _ hsn)
    rw [evictGo_cons]
    by_cases hc : hget s.buffer u = some snap
    · rw [deleteIfUnchanged_hit hc]
      have := ih ⟨hdel s.buffer u, srem s.pending u⟩ k hrest
      refine ⟨this.1.trans (hget_hdel_ne s.buffer hku), this.2.trans ?_⟩
      show k ∈ srem s.pending u ↔ k ∈ s.pending
      constructor
      · intro hm'; exact (mem_srem.mp hm').1
      · intro hm'; exact mem_srem.mpr ⟨hm', hku⟩
    · rw [deleteIfUnchanged_miss hc]
      exact ih s k hrest

/-! Structural facts used for the drain and batch-cap arguments. -/

theorem hget_mem {buf : List (String × StoredVal)} {k : String} {d : StoredVal}
    (h : hget buf k = some d) : (k, d) ∈ buf := by
  induction buf with
  | nil => cases h
  | cons e rest ih =>
    obtain ⟨k', v⟩ := e
    rw [hget] at h
    by_cases hk : k' = k
    · subst hk
      rw [if_pos rfl] at h
      injection h with h
      subst h
      exact List.mem_cons_self _ _
    · rw [if_neg hk] at h
      exact List.mem_cons_of_mem _ (ih h)

theorem hdel_sublist (buf : List (String × StoredVal)) (k : String) :
    List.Sublist (hdel buf k) buf := by
  induction buf with
  | nil => exact List.Sublist.refl []
  | cons e rest ih =>
    obtain ⟨k', v⟩ := e
    by_cases hk : k' = k
    · rw [hdel, if_pos hk]
      exact ih.cons _
    · rw [hdel, if_neg hk]
      exact ih.cons₂ _

theorem hdel_eq_self {buf : List (String × StoredVal)} {k : String}
    (h : k ∉ buf.map Prod.fst) : hdel buf k = buf := by
  induction buf with
  | nil => rfl
  | cons e rest ih =>
    obtain ⟨k', v⟩ := e
    rw [List.map_cons, List.mem_cons, not_or] at h
    rw [hdel, if_neg (fun hh => h.1 hh.symm), ih h.2]

theorem hdel_keys_nodup {buf : List (String × StoredVal)} {k : String}
    (h : (buf.map Prod.fst).Nodup) : ((hdel buf k).map Prod.fst).Nodup :=
  ((hdel_sublist buf k).map Prod.fst).nodup h

theorem hget_perm (buf : List (String × StoredVal)) :
    ∀ (u : String) (sn : StoredVal), (buf.map Prod.fst).Nodup →
      hget buf u = some sn →
      List.Perm (buf.map Prod.snd) (sn :: (hdel buf u).map Prod.snd) := by
  induction buf with
  | nil => intro u sn _ h; cases h
  | cons e rest ih =>
    obtain ⟨k, v⟩ := e
    intro u sn hnd h
    rw [List.map_cons, List.nodup_cons] at hnd
    rw [hget] at h
    by_cases hk : k = u
    · subst hk
      rw [if_pos rfl] at h
      injection h with h
      subst h
      rw [hdel, if_pos rfl, hdel_eq_self hnd.1]
      exact List.Perm.refl _
    · rw [if_neg hk] at h
      rw [hdel, if_neg hk, List.map_cons, List.map_cons]
      exact ((ih u sn hnd.2 h).cons v).trans (List.Perm.swap sn v _)

theorem fold_hdel_hget (orig : List (String × StoredVal)) :
    ∀ (buf : List (String × StoredVal)) (k : String),
      hget (orig.foldl (fun b e => hdel b e.1) buf) k =
        if k ∈ orig.map Prod.fst then none else hget buf k := by
  induction orig with
  | nil => intro buf k; simp
  | cons e rest ih =>
    obtain ⟨u, sn⟩ := e
    intro buf k
    rw [List.foldl_cons, ih (hdel buf u) k]
    have hcond : (k ∈ List.map Prod.fst ((u, sn) :: rest)) ↔
        (k = u ∨ k ∈ List.map Prod.fst rest) := by simp
    by_cases hk : k = u
    · subst hk
      rw [if_pos (hcond.mpr (Or.inl rfl))]
      by_cases hm : k ∈ List.map Prod.fst rest
      · rw [if_pos hm]
      · rw [if_neg hm]
        exact hget_hdel_self buf k
    · by_cases hm : k ∈ List.map Prod.fst rest
      · rw [if_pos hm, if_pos (hcond.mpr (Or.inr hm))]
      · rw [if_neg hm, if_neg (fun hh => (hcond.mp hh).elim hk hm)]
        exact hget_hdel_ne buf hk

theorem mem_fold_hdel (orig : List (String × StoredVal)) :
    ∀ (buf : List (String × StoredVal)) (e : String × StoredVal),
      e ∈ orig.foldl (fun b x => hdel b x.1) buf ↔
        e ∈ buf ∧ e.1 ∉ orig.map Prod.fst := by
  induction orig with
  | nil => intro buf e; simp
  | cons x rest ih =>
    obtain ⟨u, sn⟩ := x
    intro buf e
    rw [List.foldl_cons, ih (hdel buf u) e, mem_hdel, List.map_cons,
      List.mem_cons]
    constructor
    · rintro ⟨⟨h1, h2⟩, h3⟩
      refine ⟨h1, ?_⟩
      rintro (h | h)
      · exact h2 h
      · exact h3 h
    · rintro ⟨h1, h2⟩
      rw [not_or] at h2
      exact ⟨⟨h1, h2.1⟩, h2.2⟩

theorem fold_hdel_keys_nodup (orig : List (String × StoredVal)) :
    ∀ buf : List (String × StoredVal), (buf.map Prod.fst).Nodup →
      ((orig.foldl (fun b e => hdel b e.1) buf).map Prod.fst).Nodup := by
  induction orig with
  | nil => intro buf h; exact h
  | cons x rest ih =>
    intro buf h
    rw [List.foldl_cons]
    exact ih (hdel buf x.1) (hdel_keys_nodup h)

theorem fold_srem_mem (orig : List (String × StoredVal)) :
    ∀ (p : List String) (k : String),
      k ∈ orig.foldl (fun q e => srem q e.1) p ↔
        k ∈ p ∧ k ∉ orig.map Prod.fst := by
  induction orig with
  | nil => intro p k; simp
  | cons x rest ih =>
    obtain ⟨u, sn⟩ := x
    intro p k
    rw [List.foldl_cons, ih (srem p u) k, mem_srem, List.map_cons,
      List.mem_cons]
    constructor
    · rintro ⟨⟨h1, h2⟩, h3⟩
      refine ⟨h1, ?_⟩
      rintro (h | h)
      · exact h2 h
      · exact h3 h
    · rintro ⟨h1, h2⟩
      rw [not_or] at h2
      exact ⟨⟨h1, h2.1⟩, h2.2⟩

theorem fold_srem_nodup (orig : List (String × StoredVal)) :
    ∀ p : List String, p.Nodup →
      (orig.foldl (fun q e => srem q e.1) p).Nodup := by
  induction orig with
  | nil => intro p h; exact h
  | cons x rest ih =>
    intro p h
    rw [List.foldl_cons]
    exact ih (srem p x.1) (srem_nodup x.1 h)

theorem fold_srem_length (orig : List (String × StoredVal)) :
    ∀ p : List String, p.Nodup → (orig.map Prod.fst).Nodup →
      (∀ e ∈ orig, e.1 ∈ p) →
      (orig.foldl (fun q e => srem q e.1) p).length + orig.length = p.length := by
  induction orig with
  | nil => intro p _ _ _; simp
  | cons x rest ih =>
    obtain ⟨u, sn⟩ := x
    intro p hp hk hm
    rw [List.map_cons, List.nodup_cons] at hk
    rw [List.foldl_cons]
    have hup : u ∈ p := hm (u, sn) (List.mem_cons_self _ _)
    have hrest : ∀ e ∈ rest, e.1 ∈ srem p u := by
      intro e he
      refine mem_srem.mpr ⟨hm e (List.mem_cons_of_mem _ he), ?_⟩
      intro heq
      have h5 := List.mem_map_of_mem Prod.fst he
      rw [heq] at h5
      exact hk.1 h5
    have := ih (srem p u) (srem_nodup u hp) hk.2 hrest
    have hlen := srem_length_of_mem hp hup
    rw [List.length_cons]
    dsimp only at this ⊢
    omega

theorem fold_hdel_perm (orig : List (String × StoredVal)) :
    ∀ buf : List (String × StoredVal), (buf.map Prod.fst).Nodup →
      (orig.map Prod.fst).Nodup → (∀ e ∈ orig, hget buf e.1 = some e.2) →
      List.Perm (buf.map Prod.snd)
        (orig.map Prod.snd ++
          (orig.foldl (fun b e => hdel b e.1) buf).map Prod.snd) := by
  induction orig with
  | nil => intro buf _ _ _; exact List.Perm.refl _
  | cons x rest ih =>
    obtain ⟨u, sn⟩ := x
    intro buf hb hk hm
    rw [List.map_cons, List.nodup_cons] at hk
    have hu : hget buf u = some sn := hm (u, sn) (List.mem_cons_self _ _)
    have hrest : ∀ e ∈ rest, hget (hdel buf u) e.1 = some e.2 := by
      intro e he
      have hne : e.1 ≠ u := by
        intro heq
        have h5 := List.mem_map_of_mem Prod.fst he
        rw [heq] at h5
        exact hk.1 h5
      rw [hget_hdel_ne buf hne]
      exact hm e (List.mem_cons_of_mem _ he)
    have p1 := hget_perm buf u sn hb hu
    have p2 := (ih (hdel buf u) (hdel_keys_nodup hb) hk.2 hrest).cons sn
    exact p1.trans p2

/-! The clean-path characterization: every selected key holds a good
record. -/

theorem collect_clean_struct (sel : List String) :
    ∀ s : BufState, (∀ u ∈ sel, ∃ inv, hget s.buffer u = some (.good inv)) →
      (collectGo s sel).st = s ∧
      (collectGo s sel).orig.map Prod.fst = sel ∧
      (collectGo s sel).items.map StoredVal.good =
        (collectGo s sel).orig.map Prod.snd ∧
      (collectGo s sel).items.length = sel.length := by
  induction sel with
  | nil => intro s _; exact ⟨rfl, rfl, rfl, rfl⟩
  | cons u rest ih =>
    intro s h
    obtain ⟨inv, hu⟩ := h u (List.mem_cons_self _ _)
    rw [collectGo_cons_good rest hu rfl]
    have := ih s (fun w hw => h w (List.mem_cons_of_mem _ hw))
    refine ⟨this.1, ?_, ?_, ?_⟩
    · rw [List.map_cons, this.2.1]
    · rw [List.map_cons, List.map_cons, this.2.2.1]
    · rw [List.length_cons, List.length_cons, this.2.2.2]

theorem evict_hits_fold (orig : List (String × StoredVal)) :
    ∀ s : BufState, (orig.map Prod.fst).Nodup →
      (∀ e ∈ orig, hget s.buffer e.1 = some e.2) →
      evictGo s orig =
        ⟨orig.foldl (fun b e => hdel b e.1) s.buffer,
          orig.foldl (fun p e => srem p e.1) s.pending⟩ := by
  induction orig with
  | nil => intro s _ _; rfl
  | cons x rest ih =>
    obtain ⟨u, sn⟩ := x
    intro s hnd hm
    rw [List.map_cons, List.nodup_cons] at hnd
    have hu : hget s.buffer u = some sn := hm (u, sn) (List.mem_cons_self _ _)
    rw [evictGo_cons, deleteIfUnchanged_hit hu]
    have hrest : ∀ e ∈ rest, hget (hdel s.buffer u) e.1 = some e.2 := by
      intro e he
      have hne : e.1 ≠ u := by
        intro heq
        have h5 := List.mem_map_of_mem Prod.fst he
        rw [heq] at h5
        exact hnd.1 h5
      rw [hget_hdel_ne s.buffer hne]
      exact hm e (List.mem_cons_of_mem _ he)
    rw [ih ⟨hdel s.buffer u, srem s.pending u⟩ hnd.2 hrest,
      List.foldl_cons, List.foldl_cons]

/-! Branch equations for `FlushBatch`. -/

theorem flushBatch_nil (sink : List BufferedInventory → Bool) (s : BufState) :
    flushBatch sink s [] = ⟨s, 0, false, []⟩ := by
  rw [flushBatch, if_pos rfl]

theorem flushBatch_noitems {sink : List BufferedInventory → Bool}
    {s : BufState} {sel : List String} (hne : sel ≠ [])
    (hitems : (collectGo s sel).items = []) :
    flushBatch sink s sel = ⟨(collectGo s sel).st, 0, false, []⟩ := by
  rw [flushBatch, if_neg hne]
  simp [hitems]

theorem flushBatch_success {sink : List BufferedInventory → Bool}
    {s : BufState} {sel : List String} (hne : sel ≠ [])
    (hitems : (collectGo s sel).items ≠ [])
    (hsink : sink (collectGo s sel).items = true) :
    flushBatch sink s sel =
      ⟨evictGo (collectGo s sel).st (collectGo s sel).orig,
        (collectGo s sel).items.length, false, (collectGo s sel).items⟩ := by
  rw [flushBatch, if_neg hne]
  simp only [if_neg hitems, hsink, if_true]

theorem flushBatch_sinkfail {sink : List BufferedInventory → Bool}
    {s : BufState} {sel : List String} (hne : sel ≠ [])
    (hitems : (collectGo s sel).items ≠ [])
    (hsink : sink (collectGo s sel).items = false) :
    flushBatch sink s sel =
      ⟨(collectGo s sel).st, 0, true, (collectGo s sel).items⟩ := by
  rw [flushBatch, if_neg hne]
  simp [if_neg hitems, hsink]

/-- One `FlushBatch` on a well-formed, fully-deserializable state with a
successful sink: no error, every selected key flushed and evicted,
well-formedness preserved, and the sent records plus the remaining
buffer are a permutation of the original buffer. -/
theorem flushBatch_clean (s : BufState) (sel : List String)
    (hwf : WF s) (hgood : AllGood s) (hnd : sel.Nodup)
    (hsub : ∀ k ∈ sel, k ∈ s.pending) (hne : sel ≠ []) :
    (flushBatch okSink s sel).err = false ∧
    (flushBatch okSink s sel).flushed = sel.length ∧
    List.Perm
      ((flushBatch okSink s sel).sent.map StoredVal.good ++
        (flushBatch okSink s sel).state.buffer.map Prod.snd)
      (s.buffer.map Prod.snd) ∧
    WF (flushBatch okSink s sel).state ∧
    AllGood (flushBatch okSink s sel).state ∧
    (flushBatch okSink s sel).state.pending.length + sel.length =
      s.pending.length ∧
    (∀ k, k ∈ (flushBatch okSink s sel).state.pending ↔
      (k ∈ s.pending ∧ k ∉ sel)) := by
  obtain ⟨hpnd, hbnd, hpb, hbp⟩ := hwf
  have hall : ∀ u ∈ sel, ∃ inv, hget s.buffer u = some (.good inv) := by
    intro u hu
    have hp := hsub u hu
    have hs := hpb u hp
    obtain ⟨d, hd⟩ := Option.isSome_iff_exists.mp hs
    obtain ⟨inv, hinv⟩ := hgood (u, d) (hget_mem hd)
    exact ⟨inv, by rw [hd]; exact congrArg some hinv⟩
  obtain ⟨hst, horigfst, hitemsmap, hitemslen⟩ := collect_clean_struct sel s hall
  have hitemsne : (collectGo s sel).items ≠ [] := by
    intro hh
    rw [hh] at hitemslen
    exact hne (List.eq_nil_of_length_eq_zero hitemslen.symm)
  have horighget : ∀ e ∈ (collectGo s sel).orig, hget s.buffer e.1 = some e.2 :=
    fun e he => collect_orig_hget sel s e.1 e.2 he
  have horignd : ((collectGo s sel).orig.map Prod.fst).Nodup := by
    rw [horigfst]; exact hnd
  have horiglen : (collectGo s sel).orig.length = sel.length := by
    conv_rhs => rw [← horigfst]
    rw [List.length_map]
  have horigpend : ∀ e ∈ (collectGo s sel).orig, e.1 ∈ s.pending := by
    intro e he
    apply hsub
    rw [← horigfst]
    exact List.mem_map_of_mem Prod.fst he
  have hflush := @flushBatch_success okSink s sel hne hitemsne rfl
  rw [hst, evict_hits_fold (collectGo s sel).orig s horignd horighget] at hflush
  rw [hflush]
  refine ⟨rfl, hitemslen, ?_, ⟨?_, ?_, ?_, ?_⟩, ?_, ?_, ?_⟩
  · show List.Perm ((collectGo s sel).items.map StoredVal.good ++ _) _
    rw [hitemsmap]
    exact (fold_hdel_perm (collectGo s sel).orig s.buffer hbnd horignd horighget).symm
  · exact fold_srem_nodup _ _ hpnd
  · exact fold_hdel_keys_nodup _ _ hbnd
  · intro k hk
    obtain ⟨hk1, hk2⟩ := (fold_srem_mem _ _ _).mp hk
    show (hget ((collectGo s sel).orig.foldl (fun b e => hdel b e.1) s.buffer) k).isSome = true
    rw [fold_hdel_hget, if_neg hk2]
    exact hpb k hk1
  · intro e he
    obtain ⟨he1, he2⟩ := (mem_fold_hdel _ _ _).mp he
    exact (fold_srem_mem _ _ _).mpr ⟨hbp e he1, he2⟩
  · intro e he
    exact hgood e ((mem_fold_hdel _ _ _).mp he).1
  · have := fold_srem_length (collectGo s sel).orig s.pending hpnd horignd horigpend
    rw [horiglen] at this
    exact this
  · intro k
    dsimp only
    rw [fold_srem_mem, horigfst]

/-! Branch equations for the shutdown drain loop. -/

theorem drain_zero (sink : List BufferedInventory → Bool)
    (selFun : List String → List String) (s : BufState) :
    drain sink selFun 0 s = (s, []) := rfl

theorem drain_succ_err {sink : List BufferedInventory → Bool}
    {selFun : List String → List String} {fuel : Nat} {s : BufState}
    (h : (flushBatch sink s (selFun s.pending)).err = true) :
    drain sink selFun (fuel + 1) s =
      ((flushBatch sink s (selFun s.pending)).state, []) := by
  rw [drain]
  simp [h]

theorem drain_succ_done {sink : List BufferedInventory → Bool}
    {selFun : List String → List String} {fuel : Nat} {s : BufState}
    (h1 : (flushBatch sink s (selFun s.pending)).err = false)
    (h2 : (flushBatch sink s (selFun s.pending)).flushed = 0) :
    drain sink selFun (fuel + 1) s =
      ((flushBatch sink s (selFun s.pending)).state, []) := by
  rw [drain]
  simp [h1, h2]

theorem drain_succ_step {sink : List BufferedInventory → Bool}
    {selFun : List String → List String} {fuel : Nat} {s : BufState}
    (h1 : (flushBatch sink s (selFun s.pending)).err = false)
    (h2 : (flushBatch sink s (selFun s.pending)).flushed ≠ 0) :
    drain sink selFun (fuel + 1) s =
      ((drain sink selFun fuel (flushBatch sink s (selFun s.pending)).state).1,
        (flushBatch sink s (selFun s.pending)).sent ++
          (drain sink selFun fuel (flushBatch sink s (selFun s.pending)).state).2) := by
  rw [drain]
  simp [h1, h2]

/-- Claim C3: the shutdown drain loop repeatedly calls `FlushBatch`
until a call returns zero flushed items or the fuel (the drain
deadline) runs out; for every well-formed initial state of N pending,
deserializable records, an always-succeeding sink, and fuel exceeding
the required number of iterations, the drain ends with an empty pending
set and an empty record store, and the records handed to the sink over
all iterations are exactly (a permutation of) the N initial records. -/
theorem drain_complete (selFun : List String → List String)
    (hsel : ∀ p, p.Nodup → SRandN p MaxBatchSize (selFun p)) :
    ∀ (fuel : Nat) (s : BufState), WF s → AllGood s →
      s.pending.length < fuel →
      (drain okSink selFun fuel s).1.pending = [] ∧
      (drain okSink selFun fuel s).1.buffer = [] ∧
      List.Perm ((drain okSink selFun fuel s).2.map StoredVal.good)
        (s.buffer.map Prod.snd) := by
  intro fuel
  induction fuel with
  | zero => intro s _ _ h; exact absurd h (Nat.not_lt_zero _)
  | succ fuel ih =>
    intro s hwf hgood hlen
    obtain ⟨hselnd, hselsub, hsellen⟩ := hsel s.pending hwf.1
    by_cases hp : s.pending = []
    · have hsel0 : selFun s.pending = [] := by
        apply List.eq_nil_of_length_eq_zero
        rw [hsellen, hp]
        simp
      have hbuf : s.buffer = [] := by
        rcases hbufc : s.buffer with _ | ⟨e, r⟩
        · rfl
        · have := hwf.2.2.2 e (hbufc ▸ List.mem_cons_self e r)
          rw [hp] at this
          cases this
      have h1 : (flushBatch okSink s (selFun s.pending)).err = false := by
        rw [hsel0, flushBatch_nil]
      have h2 : (flushBatch okSink s (selFun s.pending)).flushed = 0 := by
        rw [hsel0, flushBatch_nil]
      rw [drain_succ_done h1 h2, hsel0, flushBatch_nil]
      exact ⟨hp, hbuf, by rw [hbuf]; exact List.Perm.refl _⟩
    · have hplen : 0 < s.pending.length := List.length_pos.mpr hp
      have hselne : selFun s.pending ≠ [] := by
        intro hh
        rw [hh] at hsellen
        have : min MaxBatchSize s.pending.length = 0 := hsellen.symm
        rw [Nat.min_eq_zero_iff] at this
        rcases this with h | h
        · exact absurd h (by rw [MaxBatchSize]; omega)
        · omega
      obtain ⟨herr, hflushed, hperm, hwf', hgood', hlen', hmem'⟩ :=
        flushBatch_clean s (selFun s.pending) hwf hgood hselnd hselsub hselne
      have hflne : (flushBatch okSink s (selFun s.pending)).flushed ≠ 0 := by
        rw [hflushed]
        exact fun hh => hselne (List.eq_nil_of_length_eq_zero hh)
      have hsl : 1 ≤ (selFun s.pending).length :=
        List.length_pos.mpr hselne
      have hlen'' :
          (flushBatch okSink s (selFun s.pending)).state.pending.length < fuel := by
        omega
      obtain ⟨ih1, ih2, ih3⟩ :=
        ih (flushBatch okSink s (selFun s.pending)).state hwf' hgood' hlen''
      rw [drain_succ_step herr hflne]
      refine ⟨ih1, ih2, ?_⟩
      rw [List.map_append]
      exact (List.Perm.append_left _ ih3).trans hperm

/-! Case-analysis helpers for `FlushBatch` on arbitrary states. -/

theorem flushBatch_sent_le (sink : List BufferedInventory → Bool)
    (s : BufState) (sel : List String) :
    (flushBatch sink s sel).sent.length ≤ sel.length := by
  by_cases hsel : sel = []
  · rw [hsel, flushBatch_nil]; exact Nat.zero_le _
  · by_cases hitems : (collectGo s sel).items = []
    · rw [flushBatch_noitems hsel hitems]; exact Nat.zero_le _
    · cases hsink : sink (collectGo s sel).items with
      | true => rw [flushBatch_success hsel hitems hsink]; exact collect_items_le sel s
      | false => rw [flushBatch_sinkfail hsel hitems hsink]; exact collect_items_le sel s

theorem flushBatch_flushed_le (sink : List BufferedInventory → Bool)
    (s : BufState) (sel : List String) :
    (flushBatch sink s sel).flushed ≤ (flushBatch sink s sel).sent.length := by
  by_cases hsel : sel = []
  · rw [hsel, flushBatch_nil]; exact Nat.le_refl 0
  · by_cases hitems : (collectGo s sel).items = []
    · rw [flushBatch_noitems hsel hitems]; exact Nat.le_refl 0
    · cases hsink : sink (collectGo s sel).items with
      | true => rw [flushBatch_success hsel hitems hsink]
      | false => rw [flushBatch_sinkfail hsel hitems hsink]; exact Nat.zero_le _

theorem flushBatch_sent_from (sink : List BufferedInventory → Bool)
    (s : BufState) (sel : List String) :
    ∀ inv ∈ (flushBatch sink s sel).sent,
      ∃ u, u ∈ sel ∧ hget s.buffer u = some (.good inv) := by
  by_cases hsel : sel = []
  · rw [hsel, flushBatch_nil]; intro inv h; cases h
  · by_cases hitems : (collectGo s sel).items = []
    · rw [flushBatch_noitems hsel hitems]; intro inv h; cases h
    · cases hsink : sink (collectGo s sel).items with
      | true =>
        rw [flushBatch_success hsel hitems hsink]
        exact fun inv h => collect_items_from sel s inv h
      | false =>
        rw [flushBatch_sinkfail hsel hitems hsink]
        exact fun inv h => collect_items_from sel s inv h

theorem flushBatch_no_new (sink : List BufferedInventory → Bool)
    (s : BufState) (sel : List String) (k : String)
    (h1 : hget s.buffer k = none) (h2 : k ∉ s.pending) :
    hget (flushBatch sink s sel).state.buffer k = none ∧
      k ∉ (flushBatch sink s sel).state.pending := by
  by_cases hsel : sel = []
  · rw [hsel, flushBatch_nil]; exact ⟨h1, h2⟩
  · have hc := collect_no_new sel s k h1 h2
    by_cases hitems : (collectGo s sel).items = []
    · rw [flushBatch_noitems hsel hitems]; exact hc
    · cases hsink : sink (collectGo s sel).items with
      | true =>
        rw [flushBatch_success hsel hitems hsink]
        exact evict_no_new (collectGo s sel).orig (collectGo s sel).st k hc.1 hc.2
      | false =>
        rw [flushBatch_sinkfail hsel hitems hsink]; exact hc

theorem flushBatch_pending_keep (sink : List BufferedInventory → Bool)
    (s : BufState) (sel : List String) (k : String)
    (hk : k ∈ s.pending) (hks : k ∉ sel) :
    k ∈ (flushBatch sink s sel).state.pending := by
  by_cases hsel : sel = []
  · rw [hsel, flushBatch_nil]; exact hk
  · have hc := (collect_untouched sel s k hks).2.mpr hk
    by_cases hitems : (collectGo s sel).items = []
    · rw [flushBatch_noitems hsel hitems]; exact hc
    · cases hsink : sink (collectGo s sel).items with
      | true =>
        rw [flushBatch_success hsel hitems hsink]
        have horig : ∀ snap, (k, snap) ∉ (collectGo s sel).orig :=
          fun snap hm => hks (collect_orig_sub sel s k snap hm)
        exact (evict_untouched (collectGo s sel).orig (collectGo s sel).st k horig).2.mpr hc
      | false =>
        rw [flushBatch_sinkfail hsel hitems hsink]; exact hc

/-! Facts about `CleanupStale`. -/

theorem cleanupScan_nil (buf : List (String × StoredVal)) (stale : Int) :
    cleanupScan buf stale [] = ([], 0) := rfl

theorem cleanupScan_cons_none {buf : List (String × StoredVal)} {stale : Int}
    {u : String} (l : List String) (hu : hget buf u = none) :
    cleanupScan buf stale (u :: l) =
      (.sremOp u :: (cleanupScan buf stale l).1, (cleanupScan buf stale l).2) := by
  simp only [cleanupScan, hu]

theorem cleanupScan_cons_corrupt {buf : List (String × StoredVal)} {stale : Int}
    {u : String} {data : StoredVal} (l : List String)
    (hu : hget buf u = some data) (hd : decode data = none) :
    cleanupScan buf stale (u :: l) =
      (.hdelOp u :: .sremOp u :: (cleanupScan buf stale l).1,
        (cleanupScan buf stale l).2 + 1) := by
  simp only [cleanupScan, hu, hd]

theorem cleanupScan_cons_stale {buf : List (String × StoredVal)} {stale : Int}
    {u : String} {data : StoredVal} {inv : BufferedInventory} (l : List String)
    (hu : hget buf u = some data) (hd : decode data = some inv)
    (hs : inv.updatedAt < stale) :
    cleanupScan buf stale (u :: l) =
      (.hdelOp u :: .sremOp u :: (cleanupScan buf stale l).1,
        (cleanupScan buf stale l).2 + 1) := by
  simp only [cleanupScan, hu, hd, if_pos hs]

theorem cleanupScan_cons_fresh {buf : List (String × StoredVal)} {stale : Int}
    {u : String} {data : StoredVal} {inv : BufferedInventory} (l : List String)
    (hu : hget buf u = some data) (hd : decode data = some inv)
    (hs : ¬inv.updatedAt < stale) :
    cleanupScan buf stale (u :: l) = cleanupScan buf stale l := by
  simp only [cleanupScan, hu, hd, if_neg hs]

theorem cleanupScan_removal (buf : List (String × StoredVal)) (stale : Int) :
    ∀ l : List String, ∀ op ∈ (cleanupScan buf stale l).1, isRemoval op := by
  intro l
  induction l with
  | nil => intro op h; cases h
  | cons u rest ih =>
    intro op h
    cases hu : hget buf u with
    | none =>
      rw [cleanupScan_cons_none rest hu] at h
      rcases List.mem_cons.mp h with rfl | h
      · exact trivial
      · exact ih op h
    | some data =>
      cases hd : decode data with
      | none =>
        rw [cleanupScan_cons_corrupt rest hu hd] at h
        rcases List.mem_cons.mp h with rfl | h
        · exact trivial
        · rcases List.mem_cons.mp h with rfl | h
          · exact trivial
          · exact ih op h
      | some inv =>
        by_cases hs : inv.updatedAt < stale
        · rw [cleanupScan_cons_stale rest hu hd hs] at h
          rcases List.mem_cons.mp h with rfl | h
          · exact trivial
          · rcases List.mem_cons.mp h with rfl | h
            · exact trivial
            · exact ih op h
        · rw [cleanupScan_cons_fresh rest hu hd hs] at h
          exact ih op h

theorem cleanupScan_hit (buf : List (String × StoredVal)) (stale : Int) :
    ∀ (l : List String) (k : String) (data : StoredVal), k ∈ l →
      hget buf k = some data →
      (decode data = none ∨
        ∃ inv, decode data = some inv ∧ inv.updatedAt < stale) →
      StoreOp.hdelOp k ∈ (cleanupScan buf stale l).1 ∧
        StoreOp.sremOp k ∈ (cleanupScan buf stale l).1 ∧
        0 < (cleanupScan buf stale l).2 := by
  intro l
  induction l with
  | nil => intro k data hk _ _; cases hk
  | cons u rest ih =>
    intro k data hk hgk hcase
    by_cases hku : k = u
    · subst hku
      rcases hcase with hd | ⟨inv, hd, hs⟩
      · rw [cleanupScan_cons_corrupt rest hgk hd]
        exact ⟨List.mem_cons_self _ _,
          List.mem_cons_of_mem _ (List.mem_cons_self _ _), Nat.succ_pos _⟩
      · rw [cleanupScan_cons_stale rest hgk hd hs]
        exact ⟨List.mem_cons_self _ _,
          List.mem_cons_of_mem _ (List.mem_cons_self _ _), Nat.succ_pos _⟩
    · have hk' : k ∈ rest := (List.mem_cons.mp hk).resolve_left hku
      have hres := ih k data hk' hgk hcase
      cases hu : hget buf u with
      | none =>
        rw [cleanupScan_cons_none rest hu]
        exact ⟨List.mem_cons_of_mem _ hres.1,
          List.mem_cons_of_mem _ hres.2.1, hres.2.2⟩
      | some d0 =>
        cases hd0 : decode d0 with
        | none =>
          rw [cleanupScan_cons_corrupt rest hu hd0]
          exact ⟨List.mem_cons_of_mem _ (List.mem_cons_of_mem _ hres.1),
            List.mem_cons_of_mem _ (List.mem_cons_of_mem _ hres.2.1),
            Nat.lt_succ_of_lt hres.2.2⟩
        | some inv0 =>
          by_cases hs0 : inv0.updatedAt < stale
          · rw [cleanupScan_cons_stale rest hu hd0 hs0]
            exact ⟨List.mem_cons_of_mem _ (List.mem_cons_of_mem _ hres.1),
              List.mem_cons_of_mem _ (List.mem_cons_of_mem _ hres.2.1),
              Nat.lt_succ_of_lt hres.2.2⟩
          · rw [cleanupScan_cons_fresh rest hu hd0 hs0]
            exact hres

theorem cleanupScan_fresh_untouch (buf : List (String × StoredVal)) (stale : Int) :
    ∀ (l : List String) (k : String) (inv : BufferedInventory),
      hget buf k = some (.good inv) → ¬inv.updatedAt < stale →
      ∀ op ∈ (cleanupScan buf stale l).1, opKey op ≠ k := by
  intro l
  induction l with
  | nil => intro k inv _ _ op h; cases h
  | cons u rest ih =>
    intro k inv hk hs op h
    by_cases hku : u = k
    · subst hku
      rw [cleanupScan_cons_fresh rest hk rfl hs] at h
      exact ih u inv hk hs op h
    · cases hu : hget buf u with
      | none =>
        rw [cleanupScan_cons_none rest hu] at h
        rcases List.mem_cons.mp h with rfl | h
        · exact hku
        · exact ih k inv hk hs op h
      | some d0 =>
        cases hd0 : decode d0 with
        | none =>
          rw [cleanupScan_cons_corrupt rest hu hd0] at h
          rcases List.mem_cons.mp h with rfl | h
          · exact hku
          · rcases List.mem_cons.mp h with rfl | h
            · exact hku
            · exact ih k inv hk hs op h
        | some inv0 =>
          by_cases hs0 : inv0.updatedAt < stale
          · rw [cleanupScan_cons_stale rest hu hd0 hs0] at h
            rcases List.mem_cons.mp h with rfl | h
            · exact hku
            · rcases List.mem_cons.mp h with rfl | h
              · exact hku
              · exact ih k inv hk hs op h
          · rw [cleanupScan_cons_fresh rest hu hd0 hs0] at h
            exact ih k inv hk hs op h

theorem cleanupStale_empty {now : Int} {s : BufState} (h : s.pending = []) :
    cleanupStale now s = (s, 0) := by
  rw [cleanupStale, if_pos h]

theorem cleanupStale_exec {now : Int} {s : BufState} (hne : s.pending ≠ [])
    (hc : 0 < (cleanupScan s.buffer (now - staleDataThreshold) s.pending).2) :
    cleanupStale now s =
      (applyOps s (cleanupScan s.buffer (now - staleDataThreshold) s.pending).1,
        (cleanupScan s.buffer (now - staleDataThreshold) s.pending).2) := by
  rw [cleanupStale, if_neg hne]
  simp only [if_pos hc]

theorem cleanupStale_noexec {now : Int} {s : BufState} (hne : s.pending ≠ [])
    (hc : ¬0 < (cleanupScan s.buffer (now - staleDataThreshold) s.pending).2) :
    cleanupStale now s =
      (s, (cleanupScan s.buffer (now - staleDataThreshold) s.pending).2) := by
  rw [cleanupStale, if_neg hne]
  simp only [if_neg hc]

theorem cleanup_no_new (now : Int) (s : BufState) (k : String)
    (h1 : hget s.buffer k = none) (h2 : k ∉ s.pending) :
    hget (cleanupStale now s).1.buffer k = none ∧
      k ∉ (cleanupStale now s).1.pending := by
  by_cases hp : s.pending = []
  · rw [cleanupStale_empty hp]; exact ⟨h1, h2⟩
  · by_cases hc : 0 < (cleanupScan s.buffer (now - staleDataThreshold) s.pending).2
    · rw [cleanupStale_exec hp hc]
      refine ⟨?_, ?_⟩
      · exact applyOps_removal_none _ s k
          (cleanupScan_removal s.buffer _ s.pending) h1
      · exact applyOps_removal_not_pending _ s k
          (cleanupScan_removal s.buffer _ s.pending) h2
    · rw [cleanupStale_noexec hp hc]; exact ⟨h1, h2⟩

/-! Claim theorems. -/

/-- Claim C2: if the persistence sink call of a flush cycle returns an
error, no eviction occurs for any item in that batch — the state after
`FlushBatch` is exactly the state as of the sink call, so every record
and pending-index entry present before the sink call is still present
afterwards — the flushed count is `0`, and the error is returned rather
than raised. -/
theorem flush_sink_failure_no_evict (sink : List BufferedInventory → Bool)
    (s : BufState) (sel : List String)
    (hne : (collectGo s sel).items ≠ [])
    (hfail : sink (collectGo s sel).items = false) :
    (flushBatch sink s sel).state = (collectGo s sel).st ∧
    (∀ k v, hget (collectGo s sel).st.buffer k = some v →
        hget (flushBatch sink s sel).state.buffer k = some v) ∧
    (∀ k, k ∈ (collectGo s sel).st.pending →
        k ∈ (flushBatch sink s sel).state.pending) ∧
    (flushBatch sink s sel).flushed = 0 ∧
    (flushBatch sink s sel).err = true := by
  have hselne : sel ≠ [] := by
    rintro rfl
    exact hne rfl
  rw [flushBatch_sinkfail hselne hne hfail]
  exact ⟨rfl, fun k v h => h, fun k h => h, rfl, rfl⟩

/-- Witness for C2 at a concrete one-record state with a failing sink. -/
theorem flush_sink_failure_no_evict_witness :
    (flushBatch (fun _ => false)
        ⟨[("a", .good ⟨1, "a", "x", 0⟩)], ["a"]⟩ ["a"]).state =
      (collectGo ⟨[("a", .good ⟨1, "a", "x", 0⟩)], ["a"]⟩ ["a"]).st ∧
    (∀ k v,
        hget (collectGo ⟨[("a", .good ⟨1, "a", "x", 0⟩)], ["a"]⟩ ["a"]).st.buffer k
            = some v →
        hget (flushBatch (fun _ => false)
            ⟨[("a", .good ⟨1, "a", "x", 0⟩)], ["a"]⟩ ["a"]).state.buffer k
          = some v) ∧
    (∀ k, k ∈ (collectGo ⟨[("a", .good ⟨1, "a", "x", 0⟩)], ["a"]⟩ ["a"]).st.pending →
        k ∈ (flushBatch (fun _ => false)
            ⟨[("a", .good ⟨1, "a", "x", 0⟩)], ["a"]⟩ ["a"]).state.pending) ∧
    (flushBatch (fun _ => false)
        ⟨[("a", .good ⟨1, "a", "x", 0⟩)], ["a"]⟩ ["a"]).flushed = 0 ∧
    (flushBatch (fun _ => false)
        ⟨[("a", .good ⟨1, "a", "x", 0⟩)], ["a"]⟩ ["a"]).err = true :=
  flush_sink_failure_no_evict (fun _ => false)
    ⟨[("a", .good ⟨1, "a", "x", 0⟩)], ["a"]⟩ ["a"] (by decide) rfl

/-- Claim C6: for every batch limit `n ≥ 1` and every buffer state, one
`FlushBatch` call selects at most `n` keys from the pending index and
hands at most `n` records to the persistence sink. -/
theorem flush_batch_cap (sink : List BufferedInventory → Bool)
    (s : BufState) (sel : List String) (n : Nat) (hn : 1 ≤ n)
    (hsel : SRandN s.pending n sel) :
    sel.length ≤ n ∧ (flushBatch sink s sel).sent.length ≤ n := by
  have h1 : sel.length ≤ n := by
    rw [hsel.2.2]
    exact Nat.min_le_left _ _
  exact ⟨h1, le_trans (flushBatch_sent_le sink s sel) h1⟩

/-- Witness for C6 at a concrete state with limit 2. -/
theorem flush_batch_cap_witness :
    (["a"] : List String).length ≤ 2 ∧
    (flushBatch okSink ⟨[("a", .good ⟨1, "a", "x", 0⟩)], ["a"]⟩ ["a"]).sent.length ≤ 2 :=
  flush_batch_cap okSink ⟨[("a", .good ⟨1, "a", "x", 0⟩)], ["a"]⟩ ["a"] 2
    (by decide) ⟨by decide, by decide, by decide⟩

/-- Claim C9: flushing an already-empty pending set returns a flushed
count of 0 with no error and leaves the state unchanged (the selection
returned by `SRandMemberN` on an empty set is empty). -/
theorem flush_empty_pending (sink : List BufferedInventory → Bool)
    (s : BufState) (sel : List String) (n : Nat) (hp : s.pending = [])
    (hsel : SRandN s.pending n sel) :
    flushBatch sink s sel = ⟨s, 0, false, []⟩ := by
  have hl : sel.length = 0 := by
    rw [hsel.2.2, hp]
    simp
  rw [List.eq_nil_of_length_eq_zero hl, flushBatch_nil]

/-- Witness for C9 at the empty state. -/
theorem flush_empty_pending_witness :
    flushBatch okSink ⟨[], []⟩ [] =
      ⟨⟨[], []⟩, 0, false, []⟩ :=
  flush_empty_pending okSink ⟨[], []⟩ [] 3 rfl ⟨by decide, by decide, by decide⟩

/-- Claim C8: `Add` fails only on serialization error — whenever
marshaling the record succeeds, `Add` writes the record, adds the key to
the pending index, and returns no error; when marshaling fails, the
serialization error is returned. -/
theorem add_fails_only_on_serialization
    (marshal : BufferedInventory → Option StoredVal) (now : Int)
    (s : BufState) (kid : Int) (uid raw : String) :
    (∀ v, marshal ⟨kid, uid, raw, now⟩ = some v →
        addWith marshal now s kid uid raw =
          .ok ⟨hset s.buffer uid v, sadd s.pending uid⟩ ∧
        hget (hset s.buffer uid v) uid = some v ∧
        uid ∈ sadd s.pending uid) ∧
    (marshal ⟨kid, uid, raw, now⟩ = none →
        addWith marshal now s kid uid raw = .error ()) := by
  constructor
  · intro v h
    exact ⟨addWith_ok h, hget_hset_self s.buffer uid v,
      mem_sadd.mpr (Or.inr rfl)⟩
  · intro h
    rw [addWith, h]

/-- Witness for C8 with the concrete serializer on a concrete state. -/
theorem add_fails_only_on_serialization_witness :
    addWith jsonMarshal 7 ⟨[], []⟩ 1 "u" "payload" =
      .ok ⟨hset ([] : List (String × StoredVal)) "u" (.good ⟨1, "u", "payload", 7⟩),
        sadd ([] : List String) "u"⟩ ∧
    hget (hset ([] : List (String × StoredVal)) "u" (.good ⟨1, "u", "payload", 7⟩)) "u" =
      some (.good ⟨1, "u", "payload", 7⟩) ∧
    "u" ∈ sadd ([] : List String) "u" :=
  (add_fails_only_on_serialization jsonMarshal 7 ⟨[], []⟩ 1 "u" "payload").1
    (.good ⟨1, "u", "payload", 7⟩) rfl

/-- Claim C1: the conditional evict deletes a record and its
pending-index entry only when the current stored value still equals the
snapshot (and deletes both exactly when it does match); in particular,
in the race `Add(k, v1)` → snapshot taken by the collect loop →
`Add(k, v2)` → sink succeeds for `v1` → the conditional evict pass, the
evict fails for `k` and `k` remains pending with value `v2`. -/
theorem conditional_evict_race :
    (∀ (s : BufState) (u : String) (snap : StoredVal),
        hget s.buffer u ≠ some snap → deleteIfUnchanged s u snap = s) ∧
    (∀ (s : BufState) (u : String) (snap : StoredVal),
        hget s.buffer u = some snap →
          deleteIfUnchanged s u snap = ⟨hdel s.buffer u, srem s.pending u⟩) ∧
    (∀ (s0 s1 s2 : BufState) (k raw1 raw2 : String) (a1 a2 t1 t2 : Int)
        (sel : List String),
        (⟨a1, k, raw1, t1⟩ : BufferedInventory) ≠ ⟨a2, k, raw2, t2⟩ →
        k ∈ sel →
        addWith jsonMarshal t1 s0 a1 k raw1 = .ok s1 →
        addWith jsonMarshal t2 (collectGo s1 sel).st a2 k raw2 = .ok s2 →
        hget (evictGo s2 (collectGo s1 sel).orig).buffer k =
            some (.good ⟨a2, k, raw2, t2⟩) ∧
          k ∈ (evictGo s2 (collectGo s1 sel).orig).pending) := by
  refine ⟨fun s u snap h => deleteIfUnchanged_miss h,
    fun s u snap h => deleteIfUnchanged_hit h, ?_⟩
  intro s0 s1 s2 k raw1 raw2 a1 a2 t1 t2 sel hne hksel h1 h2
  rw [addWith_ok rfl] at h1 h2
  injection h1 with h1
  injection h2 with h2
  have hb1 : hget s1.buffer k = some (.good ⟨a1, k, raw1, t1⟩) := by
    rw [← h1]
    exact hget_hset_self s0.buffer k _
  have hmorig : ∀ snap, (k, snap) ∈ (collectGo s1 sel).orig →
      snap ≠ .good ⟨a2, k, raw2, t2⟩ := by
    intro snap hm heq
    have := collect_orig_hget sel s1 k snap hm
    rw [hb1] at this
    injection this with this
    rw [← this] at heq
    injection heq with heq
    exact hne heq
  have hb2 : hget s2.buffer k = some (.good ⟨a2, k, raw2, t2⟩) := by
    rw [← h2]
    exact hget_hset_self (collectGo s1 sel).st.buffer k _
  have hp2 : k ∈ s2.pending := by
    rw [← h2]
    exact mem_sadd.mpr (Or.inr rfl)
  have hevict := evict_keeps_mismatch (collectGo s1 sel).orig s2 k
    (.good ⟨a2, k, raw2, t2⟩) hb2 hmorig
  exact ⟨hevict.1, hevict.2.mpr hp2⟩

/-- Witness for C1: the race at a concrete state; the evict pass leaves
the key pending with the second value. -/
theorem conditional_evict_race_witness :
    hget (evictGo ⟨[("k", .good ⟨2, "k", "v2", 5⟩)], ["k"]⟩
        (collectGo ⟨[("k", .good ⟨1, "k", "v1", 0⟩)], ["k"]⟩ ["k"]).orig).buffer "k" =
      some (.good ⟨2, "k", "v2", 5⟩) ∧
    "k" ∈ (evictGo ⟨[("k", .good ⟨2, "k", "v2", 5⟩)], ["k"]⟩
        (collectGo ⟨[("k", .good ⟨1, "k", "v1", 0⟩)], ["k"]⟩ ["k"]).orig).pending :=
  conditional_evict_race.2.2 ⟨[], []⟩ ⟨[("k", .good ⟨1, "k", "v1", 0⟩)], ["k"]⟩
    ⟨[("k", .good ⟨2, "k", "v2", 5⟩)], ["k"]⟩ "k" "v1" "v2" 1 2 0 5 ["k"]
    (by decide) (by decide) rfl rfl

/-- Claim C10: `Flush` is exactly one `FlushBatch` call with the count
discarded; a single call persists at most `MaxBatchSize = 500` records
and evicts at most `MaxBatchSize` keys, so a state with more than 500
pending keys keeps at least `pending - 500` of them. -/
theorem flush_is_single_bounded_batch (sink : List BufferedInventory → Bool)
    (s : BufState) (sel : List String) (hnd : s.pending.Nodup)
    (hsel : SRandN s.pending MaxBatchSize sel) :
    flushGo sink s sel =
      ((flushBatch sink s sel).state, (flushBatch sink s sel).err) ∧
    (flushBatch sink s sel).sent.length ≤ MaxBatchSize ∧
    s.pending.length ≤
      (flushBatch sink s sel).state.pending.length + MaxBatchSize := by
  refine ⟨rfl, ?_, ?_⟩
  · have h1 : sel.length ≤ MaxBatchSize := by
      rw [hsel.2.2]
      exact Nat.min_le_left _ _
    exact le_trans (flushBatch_sent_le sink s sel) h1
  · have hsub : s.pending ⊆ (flushBatch sink s sel).state.pending ++ sel := by
      intro k hk
      by_cases hks : k ∈ sel
      · exact List.mem_append.mpr (Or.inr hks)
      · exact List.mem_append.mpr
          (Or.inl (flushBatch_pending_keep sink s sel k hk hks))
    have hle := (List.subperm_of_subset hnd hsub).length_le
    rw [List.length_append] at hle
    have h1 : sel.length ≤ MaxBatchSize := by
      rw [hsel.2.2]
      exact Nat.min_le_left _ _
    omega

/-- Witness for C10 at a concrete two-key state. -/
theorem flush_is_single_bounded_batch_witness :
    flushGo okSink ⟨[("a", .good ⟨1, "a", "x", 0⟩), ("b", .good ⟨2, "b", "y", 0⟩)],
        ["a", "b"]⟩ ["a", "b"] =
      ((flushBatch okSink ⟨[("a", .good ⟨1, "a", "x", 0⟩), ("b", .good ⟨2, "b", "y", 0⟩)],
          ["a", "b"]⟩ ["a", "b"]).state,
        (flushBatch okSink ⟨[("a", .good ⟨1, "a", "x", 0⟩), ("b", .good ⟨2, "b", "y", 0⟩)],
          ["a", "b"]⟩ ["a", "b"]).err) ∧
    (flushBatch okSink ⟨[("a", .good ⟨1, "a", "x", 0⟩), ("b", .good ⟨2, "b", "y", 0⟩)],
        ["a", "b"]⟩ ["a", "b"]).sent.length ≤ MaxBatchSize ∧
    (["a", "b"] : List String).length ≤
      (flushBatch okSink ⟨[("a", .good ⟨1, "a", "x", 0⟩), ("b", .good ⟨2, "b", "y", 0⟩)],
          ["a", "b"]⟩ ["a", "b"]).state.pending.length + MaxBatchSize :=
  flush_is_single_bounded_batch okSink
    ⟨[("a", .good ⟨1, "a", "x", 0⟩), ("b", .good ⟨2, "b", "y", 0⟩)], ["a", "b"]⟩
    ["a", "b"] (by decide) ⟨by decide, by decide, by decide⟩

/-- Claim C5: a reap pass removes a pending, deserializable record from
both the index and the store exactly when its `UpdatedAt` is strictly
older than `now - StaleDataThreshold`; otherwise the record and its
index entry survive unchanged. -/
theorem cleanup_stale_threshold (s : BufState) (now : Int) (k : String)
    (inv : BufferedInventory) (hb : hget s.buffer k = some (.good inv))
    (hp : k ∈ s.pending) :
    (inv.updatedAt < now - staleDataThreshold →
        hget (cleanupStale now s).1.buffer k = none ∧
          k ∉ (cleanupStale now s).1.pending) ∧
    (¬inv.updatedAt < now - staleDataThreshold →
        hget (cleanupStale now s).1.buffer k = some (.good inv) ∧
          k ∈ (cleanupStale now s).1.pending) := by
  have hpne : s.pending ≠ [] := by
    intro hh
    rw [hh] at hp
    cases hp
  constructor
  · intro hs
    have hhit := cleanupScan_hit s.buffer (now - staleDataThreshold) s.pending
      k (.good inv) hp hb (Or.inr ⟨inv, rfl, hs⟩)
    rw [cleanupStale_exec hpne hhit.2.2]
    exact ⟨applyOps_hdel_mem _ s k
        (cleanupScan_removal s.buffer _ s.pending) hhit.1,
      applyOps_srem_mem _ s k
        (cleanupScan_removal s.buffer _ s.pending) hhit.2.1⟩
  · intro hs
    have huntouch := cleanupScan_fresh_untouch s.buffer
      (now - staleDataThreshold) s.pending k inv hb hs
    by_cases hc : 0 < (cleanupScan s.buffer (now - staleDataThreshold) s.pending).2
    · rw [cleanupStale_exec hpne hc]
      have := applyOps_untouched _ s k huntouch
      exact ⟨this.1.trans hb, this.2.mpr hp⟩
    · rw [cleanupStale_noexec hpne hc]
      exact ⟨hb, hp⟩

/-- Witness for C5: with `now = 10000` the stale boundary is 6400; the
record stamped 6399 (threshold + 1s past) is reaped, the record stamped
6401 (1s inside the threshold) is kept. -/
theorem cleanup_stale_threshold_witness :
    (hget (cleanupStale 10000
        ⟨[("a", .good ⟨1, "a", "x", 6399⟩), ("b", .good ⟨2, "b", "y", 6401⟩)],
          ["a", "b"]⟩).1.buffer "a" = none ∧
      "a" ∉ (cleanupStale 10000
        ⟨[("a", .good ⟨1, "a", "x", 6399⟩), ("b", .good ⟨2, "b", "y", 6401⟩)],
          ["a", "b"]⟩).1.pending) ∧
    (hget (cleanupStale 10000
        ⟨[("a", .good ⟨1, "a", "x", 6399⟩), ("b", .good ⟨2, "b", "y", 6401⟩)],
          ["a", "b"]⟩).1.buffer "b" = some (.good ⟨2, "b", "y", 6401⟩) ∧
      "b" ∈ (cleanupStale 10000
        ⟨[("a", .good ⟨1, "a", "x", 6399⟩), ("b", .good ⟨2, "b", "y", 6401⟩)],
          ["a", "b"]⟩).1.pending) :=
  ⟨(cleanup_stale_threshold
      ⟨[("a", .good ⟨1, "a", "x", 6399⟩), ("b", .good ⟨2, "b", "y", 6401⟩)], ["a", "b"]⟩
      10000 "a" ⟨1, "a", "x", 6399⟩ (by decide) (by decide)).1 (by decide),
    (cleanup_stale_threshold
      ⟨[("a", .good ⟨1, "a", "x", 6399⟩), ("b", .good ⟨2, "b", "y", 6401⟩)], ["a", "b"]⟩
      10000 "b" ⟨2, "b", "y", 6401⟩ (by decide) (by decide)).2 (by decide)⟩

/-- Claim C7: a buffered record whose stored payload does not
deserialize is removed from both the pending index and the record store
by the next flush pass that selects it (without being handed to the
sink and without being counted in the flushed count) and by the next
reap pass; once absent, neither a flush pass nor a reap pass brings it
back. -/
theorem corrupt_entry_purged (s : BufState) (k : String) (t : Nat)
    (hb : hget s.buffer k = some (.corrupt t)) (hp : k ∈ s.pending) :
    (∀ (sink : List BufferedInventory → Bool) (sel : List String), k ∈ sel →
        hget (flushBatch sink s sel).state.buffer k = none ∧
        k ∉ (flushBatch sink s sel).state.pending ∧
        (flushBatch sink s sel).flushed ≤ (flushBatch sink s sel).sent.length ∧
        (∀ inv ∈ (flushBatch sink s sel).sent,
            ∃ u, u ∈ sel ∧ u ≠ k ∧ hget s.buffer u = some (.good inv))) ∧
    (∀ now : Int,
        hget (cleanupStale now s).1.buffer k = none ∧
          k ∉ (cleanupStale now s).1.pending) ∧
    (∀ s' : BufState, hget s'.buffer k = none → k ∉ s'.pending →
        (∀ (sink : List BufferedInventory → Bool) (sel' : List String),
            hget (flushBatch sink s' sel').state.buffer k = none ∧
              k ∉ (flushBatch sink s' sel').state.pending) ∧
        (∀ now : Int,
            hget (cleanupStale now s').1.buffer k = none ∧
              k ∉ (cleanupStale now s').1.pending)) := by
  refine ⟨?_, ?_, ?_⟩
  · intro sink sel hksel
    have hselne : sel ≠ [] := by
      rintro rfl
      cases hksel
    have hc := collect_corrupt_removed sel s k t hksel hb
    have hstate : hget (flushBatch sink s sel).state.buffer k = none ∧
        k ∉ (flushBatch sink s sel).state.pending := by
      by_cases hitems : (collectGo s sel).items = []
      · rw [flushBatch_noitems hselne hitems]
        exact hc
      · cases hsink : sink (collectGo s sel).items with
        | true =>
          rw [flushBatch_success hselne hitems hsink]
          exact evict_no_new (collectGo s sel).orig (collectGo s sel).st k hc.1 hc.2
        | false =>
          rw [flushBatch_sinkfail hselne hitems hsink]
          exact hc
    refine ⟨hstate.1, hstate.2, flushBatch_flushed_le sink s sel, ?_⟩
    intro inv hinv
    obtain ⟨u, hu1, hu2⟩ := flushBatch_sent_from sink s sel inv hinv
    refine ⟨u, hu1, ?_, hu2⟩
    intro heq
    rw [heq, hb] at hu2
    cases hu2
  · intro now
    have hpne : s.pending ≠ [] := by
      intro hh
      rw [hh] at hp
      cases hp
    have hhit := cleanupScan_hit s.buffer (now - staleDataThreshold) s.pending
      k (.corrupt t) hp hb (Or.inl rfl)
    rw [cleanupStale_exec hpne hhit.2.2]
    exact ⟨applyOps_hdel_mem _ s k
        (cleanupScan_removal s.buffer _ s.pending) hhit.1,
      applyOps_srem_mem _ s k
        (cleanupScan_removal s.buffer _ s.pending) hhit.2.1⟩
  · intro s' h1 h2
    exact ⟨fun sink sel' => flushBatch_no_new sink s' sel' k h1 h2,
      fun now => cleanup_no_new now s' k h1 h2⟩

/-- Witness for C7: a concrete corrupt entry is purged by a flush pass
that selects it and by a reap pass. -/
theorem corrupt_entry_purged_witness :
    (hget (flushBatch okSink ⟨[("c", .corrupt 7)], ["c"]⟩ ["c"]).state.buffer "c" = none ∧
      "c" ∉ (flushBatch okSink ⟨[("c", .corrupt 7)], ["c"]⟩ ["c"]).state.pending ∧
      (flushBatch okSink ⟨[("c", .corrupt 7)], ["c"]⟩ ["c"]).flushed ≤
        (flushBatch okSink ⟨[("c", .corrupt 7)], ["c"]⟩ ["c"]).sent.length ∧
      (∀ inv ∈ (flushBatch okSink ⟨[("c", .corrupt 7)], ["c"]⟩ ["c"]).sent,
          ∃ u, u ∈ (["c"] : List String) ∧ u ≠ "c" ∧
            hget ([("c", .corrupt 7)] : List (String × StoredVal)) u =
              some (.good inv))) ∧
    (hget (cleanupStale 0 ⟨[("c", .corrupt 7)], ["c"]⟩).1.buffer "c" = none ∧
      "c" ∉ (cleanupStale 0 ⟨[("c", .corrupt 7)], ["c"]⟩).1.pending) :=
  ⟨(corrupt_entry_purged ⟨[("c", .corrupt 7)], ["c"]⟩ "c" 7
      (by decide) (by decide)).1 okSink ["c"] (by decide),
    (corrupt_entry_purged ⟨[("c", .corrupt 7)], ["c"]⟩ "c" 7
      (by decide) (by decide)).2.1 0⟩

/-- Claim C4, counterexample: the claim's deletion ordering — "the key
is deindexed before its record is deleted" — is false on the code.  The
removal pair issued by the conditional-evict script and by the
corrupt-entry removals is `HDEL` then `SREM`, not `SREM` then `HDEL`;
after the first of the two operations the key is still in the pending
index while its record is already gone. -/
theorem evict_order_counterexample :
    removeBothOps "u" ≠ [StoreOp.sremOp "u", StoreOp.hdelOp "u"] ∧
    removeBothOps "u" = [StoreOp.hdelOp "u", StoreOp.sremOp "u"] ∧
    hget (applyOps ⟨[("u", .corrupt 0)], ["u"]⟩
        (List.take 1 (removeBothOps "u"))).buffer "u" = none ∧
    "u" ∈ (applyOps ⟨[("u", .corrupt 0)], ["u"]⟩
        (List.take 1 (removeBothOps "u"))).pending := by
  decide

/-- Claim C4, amended: each logical mutation preserves the
pending-index invariant at its boundaries, and within a mutation the
ordering is: the record is written before its key is indexed, and the
record is deleted before its key is deindexed (so the transient window
is a dangling pending-index entry, which flush and reap tolerate). -/
theorem mutation_order_invariant :
    (∀ (s : BufState) (k : String) (v : StoredVal),
        applyOps s (List.take 1 (addOps k v)) =
          ⟨hset s.buffer k v, s.pending⟩) ∧
    (∀ (s : BufState) (k : String),
        applyOps s (List.take 1 (removeBothOps k)) =
          ⟨hdel s.buffer k, s.pending⟩) ∧
    (∀ (s : BufState) (k : String) (v : StoredVal), pendingIndexInv s →
        pendingIndexInv (applyOps s (addOps k v))) ∧
    (∀ (s : BufState) (k : String), pendingIndexInv s →
        pendingIndexInv (applyOps s (removeBothOps k))) ∧
    (∀ (s : BufState) (k : String) (snap : StoredVal), pendingIndexInv s →
        pendingIndexInv (deleteIfUnchanged s k snap)) := by
  have hrem : ∀ (s : BufState) (k : String), pendingIndexInv s →
      pendingIndexInv (applyOps s (removeBothOps k)) := by
    intro s k hinv
    rw [removeBoth_state]
    constructor
    · intro u hu
      obtain ⟨hu1, hu2⟩ := mem_srem.mp hu
      show (hget (hdel s.buffer k) u).isSome = true
      rw [hget_hdel_ne s.buffer hu2]
      exact hinv.1 u hu1
    · intro e he
      obtain ⟨he1, he2⟩ := mem_hdel.mp he
      exact mem_srem.mpr ⟨hinv.2 e he1, he2⟩
  refine ⟨fun s k v => rfl, fun s k => rfl, ?_, hrem, ?_⟩
  · intro s k v hinv
    rw [addPair_state]
    constructor
    · intro u hu
      show (hget (hset s.buffer k v) u).isSome = true
      rcases mem_sadd.mp hu with hu1 | rfl
      · by_cases hk : u = k
        · subst hk
          rw [hget_hset_self]
          rfl
        · rw [hget_hset_ne s.buffer v hk]
          exact hinv.1 u hu1
      · rw [hget_hset_self]
        rfl
    · intro e he
      rcases List.mem_cons.mp he with rfl | he1
      · exact mem_sadd.mpr (Or.inr rfl)
      · exact mem_sadd.mpr
          (Or.inl (hinv.2 e (mem_hdel.mp he1).1))
  · intro s k snap hinv
    by_cases hc : hget s.buffer k = some snap
    · rw [deleteIfUnchanged, if_pos hc]
      exact hrem s k hinv
    · rw [deleteIfUnchanged, if_neg hc]
      exact hinv

/-- Witness for the amended C4 at a concrete state. -/
theorem mutation_order_invariant_witness :
    applyOps ⟨[("u", .good ⟨1, "u", "x", 0⟩)], ["u"]⟩
        (List.take 1 (removeBothOps "u")) =
      ⟨hdel [("u", .good ⟨1, "u", "x", 0⟩)] "u", ["u"]⟩ ∧
    pendingIndexInv (applyOps ⟨[("u", .good ⟨1, "u", "x", 0⟩)], ["u"]⟩
        (removeBothOps "u")) ∧
    pendingIndexInv (applyOps ⟨[], []⟩ (addOps "u" (.good ⟨1, "u", "x", 0⟩))) :=
  ⟨mutation_order_invariant.2.1 ⟨[("u", .good ⟨1, "u", "x", 0⟩)], ["u"]⟩ "u",
    mutation_order_invariant.2.2.2.1 ⟨[("u", .good ⟨1, "u", "x", 0⟩)], ["u"]⟩ "u"
      ⟨by decide, by decide⟩,
    mutation_order_invariant.2.2.1 ⟨[], []⟩ "u" (.good ⟨1, "u", "x", 0⟩)
      ⟨by decide, by decide⟩⟩

/-- A deterministic selection satisfying the `SRandMemberN` contract:
take the first `n` members of the (duplicate-free) pending set. -/
theorem take_SRandN (n : Nat) (p : List String) (h : p.Nodup) :
    SRandN p n (p.take n) :=
  ⟨(List.take_sublist n p).nodup h,
    fun _ hk => List.mem_of_mem_take hk,
    List.length_take n p⟩

/-- Witness for C3: draining a concrete one-record buffer with fuel 2
empties it and persists exactly that record. -/
theorem drain_complete_witness :
    (drain okSink (fun p => p.take MaxBatchSize) 2
        ⟨[("a", .good ⟨1, "a", "x", 0⟩)], ["a"]⟩).1.pending = [] ∧
    (drain okSink (fun p => p.take MaxBatchSize) 2
        ⟨[("a", .good ⟨1, "a", "x", 0⟩)], ["a"]⟩).1.buffer = [] ∧
    List.Perm
      ((drain okSink (fun p => p.take MaxBatchSize) 2
          ⟨[("a", .good ⟨1, "a", "x", 0⟩)], ["a"]⟩).2.map StoredVal.good)
      ([("a", StoredVal.good ⟨1, "a", "x", 0⟩)].map Prod.snd) :=
  drain_complete (fun p => p.take MaxBatchSize)
    (fun p hp => take_SRandN MaxBatchSize p hp) 2
    ⟨[("a", .good ⟨1, "a", "x", 0⟩)], ["a"]⟩
    ⟨by decide, by decide, by decide, by decide⟩
    (by
      intro p hp
      rw [List.mem_singleton] at hp
      subst hp
      exact ⟨⟨1, "a", "x", 0⟩, rfl⟩)
    (by decide)
